import Mathlib

/-!
Verification of the extraction-and-aggregation pipeline of the
bio-data-analysis repository.  The Python sources are shallowly embedded:
strings are lists of Unicode code points, spreadsheet grids are lists of
rows of cells, and each script function becomes a Lean definition with the
same control flow.  The Unicode tables (canonical decomposition, combining
marks, upper-casing) are restricted to the character repertoire the
pipeline actually manipulates: ASCII plus the Vietnamese letters occurring
in the sources' keyword lists and test data; characters outside the tables
decompose to themselves, are non-combining, and are fixed by upper-casing.
-/

namespace Edengue

/-- Strings are modelled as lists of Unicode code points. -/
abbrev UStr := List Nat

/-- Whitespace code points recognised by Python's str.strip and the regex
class backslash-s (the subset relevant here). -/
def wsChars : List Nat := [9, 10, 11, 12, 13, 32]

def isWsN (c : Nat) : Bool := decide (c ∈ wsChars)

/-- ASCII decimal digit test (Python str.isdigit on the modelled set). -/
def isDigitN (c : Nat) : Bool := decide (48 ≤ c ∧ c ≤ 57)

/-- Combining marks of the modelled repertoire (all category Mn, all with a
nonzero canonical combining class, so unicodedata.combining and the
category Mn test agree on them): grave, acute, circumflex, tilde, breve,
hook above, horn, dot below. -/
def combiningMarks : List Nat := [768, 769, 770, 771, 774, 777, 795, 803]

def isComb (c : Nat) : Bool := decide (c ∈ combiningMarks)

/-- Full canonical decompositions (NFD) of the modelled precomposed
Vietnamese letters; for these characters the compatibility decomposition
(NFKD) coincides with the canonical one, so one table serves both
unicodedata.normalize("NFD", _) and ("NFKD", _).  Note that U+0110 and
U+0111 (Vietnamese D with stroke) have no decomposition and are therefore
absent. -/
def decompTable : List (Nat × List Nat) :=
  [ (192, [65, 768]),   -- A grave
    (193, [65, 769]),   -- A acute
    (218, [85, 769]),   -- U acute
    (224, [97, 768]),   -- a grave
    (225, [97, 769]),   -- a acute
    (250, [117, 769]),  -- u acute
    (416, [79, 795]),   -- O horn
    (417, [111, 795]),  -- o horn
    (7852, [65, 803, 770]),  -- A circumflex + dot below
    (7853, [97, 803, 770]),  -- a circumflex + dot below
    (7860, [65, 774, 771]),  -- A breve + tilde
    (7861, [97, 774, 771]),  -- a breve + tilde
    (7878, [69, 803, 770]),  -- E circumflex + dot below
    (7879, [101, 803, 770]), -- e circumflex + dot below
    (7880, [73, 777]),       -- I hook above
    (7881, [105, 777]),      -- i hook above
    (7882, [73, 803]),       -- I dot below
    (7883, [105, 803]),      -- i dot below
    (7902, [79, 795, 777]),  -- O horn + hook above
    (7903, [111, 795, 777]) ] -- o horn + hook above

/-- Canonical decomposition of one code point. -/
def nfdChar (c : Nat) : List Nat :=
  match decompTable.find? (fun p => p.1 == c) with
  | some p => p.2
  | none => [c]

/-- unicodedata.normalize("NFD"/"NFKD", s) on the modelled repertoire:
concatenation of the per-character decompositions. -/
def nfdStr : UStr → UStr
  | [] => []
  | c :: r => nfdChar c ++ nfdStr r

/-- Upper-case mappings outside ASCII for the modelled repertoire. -/
def upperTable : List (Nat × Nat) :=
  [ (224, 192), (225, 193), (250, 218), (273, 272), (417, 416),
    (7853, 7852), (7861, 7860), (7879, 7878), (7881, 7880),
    (7883, 7882), (7903, 7902) ]

/-- Python str.upper on one code point of the modelled repertoire. -/
def upperN (c : Nat) : Nat :=
  if 97 ≤ c ∧ c ≤ 122 then c - 32
  else
    match upperTable.find? (fun p => p.1 == c) with
    | some p => p.2
    | none => c

def upperStr (s : UStr) : UStr := s.map upperN

/-- The explicit replacement of U+0110/U+0111 (D with stroke) by plain D/d
performed by s.replace in the sources. -/
def mapDchar (c : Nat) : Nat :=
  if c = 272 then 68 else if c = 273 then 100 else c

def mapDStr (s : UStr) : UStr := s.map mapDchar

/-- Dropping combining characters, as in the comprehension
"join(ch for ch in s if not unicodedata.combining(ch))". -/
def stripComb (s : UStr) : UStr := s.filter (fun c => !isComb c)

def trimL (s : UStr) : UStr := s.dropWhile isWsN

def trimR : UStr → UStr
  | [] => []
  | c :: r =>
    let t := trimR r
    if t.isEmpty && isWsN c then [] else c :: t

/-- Python str.strip(). -/
def trim (s : UStr) : UStr := trimR (trimL s)

/-- Replacing each maximal whitespace run by a single space, as
re.sub(backslash-s+, " ", s) does; the flag records whether the previous
character was inside a whitespace run. -/
def collapseAux : Bool → UStr → UStr
  | _, [] => []
  | prevWs, c :: r =>
    if isWsN c then
      if prevWs then collapseAux true r else 32 :: collapseAux true r
    else
      c :: collapseAux false r

def collapseWs (s : UStr) : UStr := collapseAux false s

/-- Pure-string body of remove_diacritics_upper in edengue_import.py:
strip, NFKD, drop combining marks, map D-stroke to D, collapse whitespace
runs, strip, upper-case. -/
def rduT (s : UStr) : UStr :=
  upperStr (trim (collapseWs (mapDStr (stripComb (nfdStr (trim s))))))

/-- remove_diacritics_upper (edengue_import.py); a null (NaN) input is
returned unchanged. -/
def remove_diacritics_upper : Option UStr → Option UStr
  | none => none
  | some s => some (rduT s)

/-- Pure-string body of normalize in edengue_processing.py: NFD, drop the
category-Mn characters, upper-case, strip.  There is no D-stroke
replacement on this path. -/
def normT (s : UStr) : UStr := trim (upperStr (stripComb (nfdStr s)))

/-- normalize (edengue_processing.py); a null input propagates as null. -/
def normalize : Option UStr → Option UStr
  | none => none
  | some s => some (normT s)

/-- remove_diacritics_ascii (fill_edengue_from_dmoss.py): map D-stroke to
D first, then NFKD, then drop combining marks.  No upper-casing here. -/
def remove_diacritics_ascii (s : UStr) : UStr := stripComb (nfdStr (mapDStr s))

/-- Python str.isdigit on the modelled set: nonempty and all ASCII digits. -/
def isDigitStr (s : UStr) : Bool := !s.isEmpty && s.all isDigitN

/-- Decimal value of a digit string (int(...) on such a string). -/
def digitsToNat (s : UStr) : Nat := s.foldl (fun a c => a * 10 + (c - 48)) 0

def startsWithN : List Nat → List Nat → Bool
  | [], _ => true
  | _ :: _, [] => false
  | a :: p, b :: s => a == b && startsWithN p s

/-- Python substring containment (the "in" operator on str). -/
def infixN (p : List Nat) : List Nat → Bool
  | [] => startsWithN p []
  | c :: r => startsWithN p (c :: r) || infixN p r

/-- First maximal run of decimal digits in a string, as an integer:
re.search(r"(d+)", s) followed by int(...). -/
def firstDigitRun (s : UStr) : Option Nat :=
  let r := s.dropWhile (fun c => !isDigitN c)
  if r.isEmpty then none else some (digitsToNat (r.takeWhile isDigitN))

/-! Cells and grids.  A spreadsheet cell read through pandas holds either a
missing value (NaN), a number, or text.  Python numbers are either ints or
floats; floats are modelled as exact rationals, which preserves the only
facts the pipeline inspects (value, and is_integer). -/

inductive PyNum where
  | intV (i : ℤ)
  | floatV (q : ℚ)
deriving DecidableEq, Repr

inductive Cell where
  | blank
  | str (s : UStr)
  | num (v : PyNum)
deriving DecidableEq, Repr

def digitsGo : Nat → Nat → List Nat → List Nat
  | 0, _, acc => acc
  | fuel + 1, m, acc =>
    if m = 0 then acc else digitsGo fuel (m / 10) ((m % 10 + 48) :: acc)

/-- Decimal digits of a natural number. -/
def natDigits (n : Nat) : List Nat := if n = 0 then [48] else digitsGo n n []

def renderInt (i : ℤ) : UStr := (if i < 0 then [45] else []) ++ natDigits i.natAbs

def fracDigits : Nat → ℚ → List Nat
  | 0, _ => []
  | fuel + 1, q =>
    if q = 0 then []
    else
      let d := (q * 10).floor
      (d.toNat + 48) :: fracDigits fuel (q * 10 - d)

/-- Decimal rendering of a Python float (str(v)); floats always show a
fractional part.  Only the shape matters to the pipeline: the rendering of
a number consists of digits, a dot and possibly a minus sign, so it never
equals the marker token and never contains a boilerplate keyword. -/
def renderFloat (q : ℚ) : UStr :=
  (if q < 0 then [45] else []) ++ natDigits (⌊|q|⌋).toNat ++ [46] ++
    (let f := fracDigits 30 (|q| - ⌊|q|⌋)
     if f.isEmpty then [48] else f)

def showPyNum : PyNum → UStr
  | PyNum.intV i => renderInt i
  | PyNum.floatV q => renderFloat q

/-- str(cell) as applied by the sources; a missing value renders as the
text nan, exactly what pandas astype(str) produces for NaN. -/
def showCell : Cell → UStr
  | Cell.blank => [110, 97, 110]
  | Cell.str s => s
  | Cell.num v => showPyNum v

/-- A positionally loaded sheet (pandas read_excel with header=None):
ncols is df.shape[1].  Loaded frames are rectangular; reads outside the
stored rows surface as missing values, matching the NaN padding pandas
applies to short rows. -/
structure DF where
  ncols : Nat
  rows : List (List Cell)
deriving DecidableEq, Repr

def cellAt (d : DF) (r c : Nat) : Cell :=
  ((d.rows[r]?.bind (fun row => row[c]?)).getD Cell.blank)

/-- Rectangularity of a loaded frame. -/
def dfWF (d : DF) : Bool := d.rows.all (fun r => r.length == d.ncols)

/-! The heuristic row-extraction path (edengue_import.py). -/

/-- The default bad_keywords list of extract_tc_rows_from_sheet. -/
def badKeywords : List UStr :=
  [ [272, 7883, 97],                          -- D-stroke i-dot-below a
    [83, 7902],                               -- S O-horn-hook
    [66, 193, 79],                            -- B A-acute O
    [71, 104, 105, 32, 99, 104, 250],         -- G h i space c h u-acute
    [84, 79, 192, 78, 32, 84, 7880, 78, 72],  -- T O A-grave N space T I-hook N H
    [78, 417, 105, 32, 110, 104, 7853, 110],  -- N o-horn i space n h a-circ-dot n
    [86, 105, 7879, 110],                     -- V i e-circ-dot n
    [78, 103, 224, 121],                      -- N g a-grave y
    [84, 67] ]                                -- T C

/-- A cell marks a summary row when its text, trimmed and upper-cased,
equals the literal TC. -/
def isMarkerCell (c : Cell) : Bool := upperStr (trim (showCell c)) == [84, 67]

/-- Indices of the marker rows, in increasing order (the boolean mask of
the source). -/
def markerIdxs (d : DF) : List Nat :=
  (List.range d.rows.length).filter (fun i => (d.rows.getD i []).any isMarkerCell)

/-- One step of the upward label search: a cell is usable when it is not
missing, its trimmed text is nonempty, and that text (upper-cased) does
not contain any keyword (upper-cased). -/
def goodLabel (kw : List UStr) (c : Cell) : Option UStr :=
  match c with
  | Cell.blank => none
  | v =>
    let s := trim (showCell v)
    if s.isEmpty then none
    else if kw.any (fun k => infixN (upperStr k) (upperStr s)) then none
    else some s

/-- Upward scan through one column, nearest row first: the loop
for i in range(idx-1, -1, -1). -/
def searchUp (kw : List UStr) (d : DF) (col : Nat) : Nat → Option UStr
  | 0 => none
  | i + 1 =>
    match goodLabel kw (cellAt d i col) with
    | some s => some s
    | none => searchUp kw d col i

/-- District label search of extract_tc_rows_from_sheet: column 0 first
(skipped entirely when the grid has no columns), then column 1 when the
grid has more than one column. -/
def findDistrict (kw : List UStr) (d : DF) (idx : Nat) : Option UStr :=
  if d.ncols = 0 then none
  else
    match searchUp kw d 0 idx with
    | some s => some s
    | none => if 1 < d.ncols then searchUp kw d 1 idx else none

def unknownStr : UStr := [85, 78, 75, 78, 79, 87, 78]

/-- Exact rational denoted by unsigned integer digits and fractional
digits (float conversion of a matched numeral): ip.fp with fl fractional
places is (ip * 10^fl + fp) / 10^fl. -/
def numValU (ip : Nat) (fp : Nat) (fl : Nat) : ℚ :=
  Rat.divInt (ip * 10 ^ fl + fp) (10 ^ fl)

/-- int(n) if n.is_integer() else n. -/
def collapseNum (q : ℚ) : PyNum :=
  if q.den = 1 then PyNum.intV q.num else PyNum.floatV q

/-- The unsigned part of the numeral pattern digits+ (dot digits+)?,
matched greedily as the regex does, with the denoted rational; none when
the text does not match. -/
def parseUnsigned (u : UStr) : Option ℚ :=
  let ds := u.takeWhile isDigitN
  let rest := u.drop ds.length
  if ds.isEmpty then none
  else if rest.isEmpty then some (numValU (digitsToNat ds) 0 0)
  else
    match rest with
    | 46 :: fs =>
      if !fs.isEmpty && fs.all isDigitN then
        some (numValU (digitsToNat ds) (digitsToNat fs) fs.length)
      else none
    | _ => none

/-- re.fullmatch of the numeral pattern minus? digits+ (dot digits+)? on
the cleaned text, followed by float conversion and integer collapse;
none when the text does not match. -/
def parseNum (t : UStr) : Option PyNum :=
  let neg := startsWithN [45] t
  let u := if neg then t.drop 1 else t
  (parseUnsigned u).map (fun q => collapseNum (if neg then -q else q))

def removeCommas (s : UStr) : UStr := s.filter (fun c => !(c == 44))

/-- safe_get of edengue_import.py, applied to an already-fetched cell:
missing values coerce to the integer 0; text is stripped, commas removed,
then either parsed as a numeral or collapsed to 0; native numbers pass
through unchanged. -/
def safe_get (c : Cell) : PyNum :=
  match c with
  | Cell.blank => PyNum.intV 0
  | Cell.str s =>
    let t := removeCommas (trim s)
    (match parseNum t with
     | some v => v
     | none => PyNum.intV 0)
  | Cell.num v => v

/-- safe_get at a grid position; an out-of-bounds read (the caught
exception of the source) yields the same 0 as a missing value. -/
def safeGetAt (d : DF) (r c : Nat) : PyNum := safe_get (cellAt d r c)

/-- The five 0-based column offsets D..H. -/
structure ColMap where
  c1 : Nat
  c2 : Nat
  c3 : Nat
  c4 : Nat
  c5 : Nat
deriving DecidableEq, Repr

def defaultColMap : ColMap := ⟨3, 4, 5, 6, 7⟩

/-- A record emitted by the heuristic path, one per marker row. -/
structure ImpRecord where
  province : UStr
  district : UStr
  year : ℤ
  month : Nat
  den1 : PyNum
  den2 : PyNum
  den3 : PyNum
  den4 : PyNum
  total : PyNum
deriving DecidableEq, Repr

/-- extract_tc_rows_from_sheet (edengue_import.py). -/
def extract_tc_rows_from_sheet (d : DF) (monthVal : Nat) (provName : UStr)
    (cm : ColMap) (kw : List UStr) : List ImpRecord :=
  (markerIdxs d).map (fun idx =>
    let district := (findDistrict kw d idx).getD unknownStr
    { province := provName
      district := rduT district
      year := 2025
      month := monthVal
      den1 := safeGetAt d idx cm.c1
      den2 := safeGetAt d idx cm.c2
      den3 := safeGetAt d idx cm.c3
      den4 := safeGetAt d idx cm.c4
      total := safeGetAt d idx cm.c5 })

/-- process_file_to_edengue (edengue_import.py), from the loaded workbook
on: sheets whose names hold no digits are skipped, the first digit run of
the name becomes the month and is filtered by the caller's inclusive
bounds; the caller-supplied province name is stripped and upper-cased.
The year written by the extractor is the literal 2025 of the source. -/
def process_file_to_edengue (sheets : List (UStr × DF)) (provName : UStr)
    (monthMin monthMax : Nat) (cm : ColMap) : List ImpRecord :=
  let provU := upperStr (trim provName)
  sheets.flatMap (fun p =>
    match firstDigitRun p.1 with
    | none => []
    | some m =>
      if monthMin ≤ m ∧ m ≤ monthMax then
        extract_tc_rows_from_sheet p.2 m provU cm badKeywords
      else [])

/-! The fixed-offset path (fill_edengue_from_dmoss.py). -/

/-- get_cell of read_dmoss_sheet: missing (or out-of-bounds) becomes
null, an integral float collapses to an int, everything else passes
through. -/
def dmossGet (c : Cell) : Option Cell :=
  match c with
  | Cell.blank => none
  | Cell.num (PyNum.floatV q) =>
    some (Cell.num (if q.den = 1 then PyNum.intV q.num else PyNum.floatV q))
  | v => some v

def dmossGetAt (d : DF) (r c : Nat) : Option Cell := dmossGet (cellAt d r c)

structure DmossRow where
  month : Nat
  den1 : Option Cell
  den2 : Option Cell
  den3 : Option Cell
  den4 : Option Cell
  total : Option Cell
deriving DecidableEq, Repr

/-- read_dmoss_sheet (fill_edengue_from_dmoss.py): twelve rows, one per
month 1..12, each reading the five metric rows at the month's column. -/
def read_dmoss_sheet (d : DF) (d1 d2 d3 d4 tot start : Nat) : List DmossRow :=
  (List.range 12).map (fun i =>
    { month := i + 1
      den1 := dmossGetAt d d1 (start + i)
      den2 := dmossGetAt d d2 (start + i)
      den3 := dmossGetAt d d3 (start + i)
      den4 := dmossGetAt d d4 (start + i)
      total := dmossGetAt d tot (start + i) })

/-- infer_year_from_filename: first occurrence of the pattern
2 0 digit digit in the name. -/
def infer_year_from_filename : UStr → Option ℤ
  | c1 :: c2 :: c3 :: c4 :: rest =>
    if c1 = 50 ∧ c2 = 48 ∧ isDigitN c3 = true ∧ isDigitN c4 = true then
      some (2000 + 10 * ((c3 : ℤ) - 48) + ((c4 : ℤ) - 48))
    else infer_year_from_filename (c2 :: c3 :: c4 :: rest)
  | _ => none

structure DmossRec where
  province : UStr
  district : UStr
  year : Option ℤ
  month : Nat
  den1 : Option Cell
  den2 : Option Cell
  den3 : Option Cell
  den4 : Option Cell
  total : Option Cell
deriving DecidableEq, Repr

/-- process_dmoss_file (fill_edengue_from_dmoss.py), from the loaded
workbook on: each sheet's name, diacritic-stripped and upper-cased, is the
province; the district is the empty string; the year is the explicit
argument if present, else inferred from the workbook's filename (null when
neither yields one). -/
def process_dmoss_file (fname : UStr) (yearArg : Option ℤ)
    (sheets : List (UStr × DF)) (d1 d2 d3 d4 tot start : Nat) : List DmossRec :=
  sheets.flatMap (fun p =>
    let province := upperStr (remove_diacritics_ascii p.1)
    let yr := match yearArg with
      | some y => some y
      | none => infer_year_from_filename fname
    (read_dmoss_sheet p.2 d1 d2 d3 d4 tot start).map (fun m =>
      { province := province
        district := []
        year := yr
        month := m.month
        den1 := m.den1
        den2 := m.den2
        den3 := m.den3
        den4 := m.den4
        total := m.total }))

/-! The column-resolution and aggregation path (edengue_processing.py). -/

/-- A caller-supplied column token: the source accepts both Python ints
and strings (duck-typed). -/
inductive ColTok where
  | intT (i : ℤ)
  | strT (s : UStr)
deriving DecidableEq, Repr

/-- col_by_index_or_name (edengue_processing.py).  For an integer-like
token the source runs "if idx < len(df.columns): return df.columns[idx]"
and otherwise returns None from inside the try block, so such tokens never
reach name matching; a negative integer indexes from the end as in Python,
and the IndexError of a too-negative one is caught and falls through to
the name-matching code, which ignores non-string tokens.  String tokens
that are not digit strings try an exact label match first, then a
case-insensitive substring match. -/
def col_by_index_or_name (cols : List UStr) : Option ColTok → Option UStr
  | none => none
  | some (ColTok.intT i) =>
    if 0 ≤ i then
      if i.toNat < cols.length then cols[i.toNat]? else none
    else
      if i.natAbs ≤ cols.length then cols[(cols.length - i.natAbs)]? else none
  | some (ColTok.strT s) =>
    if isDigitStr s then
      if digitsToNat s < cols.length then cols[digitsToNat s]? else none
    else
      match cols.find? (fun c => c == s) with
      | some c => some c
      | none => cols.find? (fun c => infixN (upperStr s) (upperStr c))

/-- detect_den_from_cols (edengue_processing.py): the row is a mapping
from column label to value (none models a label absent from the row); a
flag is raised when some listed column holds a non-null value whose text,
with the minus-hyphen characters removed and upper-cased, contains the
serotype token. -/
def detect_den_from_cols (row : UStr → Option Cell) (cols : List UStr)
    (tok : UStr) : Bool :=
  cols.any (fun c =>
    match row c with
    | none => false
    | some Cell.blank => false
    | some v => infixN tok (upperStr ((showCell v).filter (fun c2 => !(c2 == 45)))))

/-- A loaded table with named columns (pandas read_excel with a header
row).  Column labels are assumed distinct, as pandas label selection
requires. -/
structure Tbl where
  cols : List UStr
  rows : List (List Cell)

/-- Value of a labelled column in one row (df[label] at that row). -/
def fieldAt (cols : List UStr) (row : List Cell) (lbl : UStr) : Cell :=
  row.getD (cols.findIdx (fun c => c == lbl)) Cell.blank

/-- normalize applied to a raw cell: missing propagates as null, any
other value is stringified and normalized. -/
def normalizeCell (c : Cell) : Option UStr :=
  match c with
  | Cell.blank => none
  | v => some (normT (showCell v))

/-- One record of edengue_processing.process after the per-row phase. -/
structure PRow where
  province : Option UStr
  district : Option UStr
  year : ℤ
  month : Option Nat
  den1 : Bool
  den2 : Bool
  den3 : Bool
  den4 : Bool
  total : Nat
deriving DecidableEq, Repr

/-- Resolution of the result-column token list; an unresolved token is the
ValueError of the source. -/
def resolveAll (cols : List UStr) : List ColTok → Option (List UStr)
  | [] => some []
  | t :: ts =>
    match col_by_index_or_name cols (some t) with
    | none => none
    | some c => (resolveAll cols ts).map (fun cs => c :: cs)

def denTok : Nat → UStr
  | k => [68, 69, 78] ++ natDigits k

/-- The per-row phase of process (edengue_processing.py lines 86-134),
from the loaded table on.  parseMonth stands for the external
pd.to_datetime(..., errors=coerce).dt.month collaborator; province
resolution failure and an unresolved result column are the fatal errors of
the source (none).  district is null for every row when no district column
was supplied. -/
def process_rows (t : Tbl) (provTok : Option ColTok) (distTok : Option ColTok)
    (monthTok : Option ColTok) (resToks : Option (List ColTok)) (year : ℤ)
    (parseMonth : Cell → Option Nat) : Option (List PRow) :=
  match col_by_index_or_name t.cols provTok with
  | none => none
  | some provCol =>
    let distCol := match distTok with
      | none => none
      | some tk => col_by_index_or_name t.cols (some tk)
    let monthCol := match monthTok with
      | none => none
      | some tk => col_by_index_or_name t.cols (some tk)
    match (match resToks with
           | none => some []
           | some ts => resolveAll t.cols ts) with
    | none => none
    | some resCols =>
      let look := fun (row : List Cell) (lbl : UStr) =>
        if t.cols.any (fun c => c == lbl) then some (fieldAt t.cols row lbl) else none
      some (t.rows.map (fun row =>
        { province := normalizeCell (fieldAt t.cols row provCol)
          district := match distCol with
            | some c => normalizeCell (fieldAt t.cols row c)
            | none => none
          year := year
          month := match monthCol with
            | some lbl =>
              if lbl.isEmpty then none else parseMonth (fieldAt t.cols row lbl)
            | none => none
          den1 := detect_den_from_cols (look row) resCols (denTok 1)
          den2 := detect_den_from_cols (look row) resCols (denTok 2)
          den3 := detect_den_from_cols (look row) resCols (denTok 3)
          den4 := detect_den_from_cols (look row) resCols (denTok 4)
          total := if resCols.any (fun lbl => decide (fieldAt t.cols row lbl ≠ Cell.blank))
                   then 1 else 0 }))

/-- A grouping key of the aggregation step.  The district component is
none when the district dimension is collapsed out of the key entirely, and
some d (d possibly null) when it participates. -/
structure GKey where
  province : Option UStr
  district : Option (Option UStr)
  year : ℤ
  month : Option Nat
deriving DecidableEq, Repr

def keyOf (incD : Bool) (r : PRow) : GKey :=
  { province := r.province
    district := if incD then some r.district else none
    year := r.year
    month := r.month }

structure GRow where
  key : GKey
  nden1 : Nat
  nden2 : Nat
  nden3 : Nat
  nden4 : Nat
  ntotal : Nat
deriving DecidableEq, Repr

/-- Sum of a boolean column over a group, with the 0/1 coercion sum
performs on booleans. -/
def boolSum (l : List PRow) (f : PRow → Bool) : Nat :=
  (l.map (fun r => if f r then 1 else 0)).sum

/-- The condition of the source for putting district into the grouping
key: the column exists (it always does) and holds at least one non-null
value. -/
def includeDistrict (rows : List PRow) : Bool := rows.any (fun r => r.district.isSome)

/-- The groupby(group_cols, dropna=False).agg(...) step: one output row
per distinct key (null-valued keys included), summing the four flag
columns and the total-test column within each group.  Row order of the
output is not modelled (pandas sorts keys; no claim concerns order). -/
def aggregate (rows : List PRow) : List GRow :=
  let incD := includeDistrict rows
  ((rows.map (keyOf incD)).dedup).map (fun k =>
    let grp := rows.filter (fun r => decide (keyOf incD r = k))
    { key := k
      nden1 := boolSum grp (fun r => r.den1)
      nden2 := boolSum grp (fun r => r.den2)
      nden3 := boolSum grp (fun r => r.den3)
      nden4 := boolSum grp (fun r => r.den4)
      ntotal := (grp.map (fun r => r.total)).sum })

/-- process (edengue_processing.py), per-row phase followed by
aggregation. -/
def process_table (t : Tbl) (provTok : Option ColTok) (distTok : Option ColTok)
    (monthTok : Option ColTok) (resToks : Option (List ColTok)) (year : ℤ)
    (parseMonth : Cell → Option Nat) : Option (List GRow) :=
  (process_rows t provTok distTok monthTok resToks year parseMonth).map aggregate

/-! Character-level stability facts.  The normalizers are idempotent
because every character they can emit decomposes to itself, is
non-combining and is fixed by upper-casing (and, on the import path, by
the D-stroke replacement); the lemmas below establish this stage by
stage. -/

theorem nfdChar_cases (c : Nat) :
    nfdChar c = [c] ∨ ∃ p ∈ decompTable, p.1 = c ∧ nfdChar c = p.2 := by
  unfold nfdChar
  cases h : decompTable.find? (fun p => p.1 == c) with
  | none => exact Or.inl rfl
  | some p =>
    refine Or.inr ⟨p, List.mem_of_find?_eq_some h, ?_, rfl⟩
    have := List.find?_some h
    simpa using this

theorem upperN_cases (c : Nat) :
    (97 ≤ c ∧ c ≤ 122 ∧ upperN c = c - 32) ∨
      (∃ p ∈ upperTable, p.1 = c ∧ upperN c = p.2) ∨ upperN c = c := by
  by_cases h : 97 ≤ c ∧ c ≤ 122
  · exact Or.inl ⟨h.1, h.2, by unfold upperN; rw [if_pos h]⟩
  · cases hf : upperTable.find? (fun p => p.1 == c) with
    | none =>
      refine Or.inr (Or.inr ?_)
      unfold upperN
      rw [if_neg h, hf]
    | some p =>
      refine Or.inr (Or.inl ⟨p, List.mem_of_find?_eq_some hf, ?_, ?_⟩)
      · have := List.find?_some hf
        simpa using this
      · unfold upperN
        rw [if_neg h, hf]

theorem decompTable_keys : ∀ p ∈ decompTable, 192 ≤ p.1 := by decide

theorem upperTable_keys : ∀ p ∈ upperTable, 224 ≤ p.1 := by decide

theorem marks_ge : ∀ m ∈ combiningMarks, 768 ≤ m := by decide

theorem wsChars_le : ∀ w ∈ wsChars, w ≤ 32 := by decide

theorem nfdChar_small {c : Nat} (h : c < 192) : nfdChar c = [c] := by
  have hn : decompTable.find? (fun p => p.1 == c) = none := by
    rw [List.find?_eq_none]
    intro p hp
    have := decompTable_keys p hp
    simp only [beq_iff_eq]
    omega
  unfold nfdChar
  rw [hn]

theorem upperN_small {c : Nat} (h1 : ¬(97 ≤ c ∧ c ≤ 122)) (h2 : c < 224) :
    upperN c = c := by
  have hn : upperTable.find? (fun p => p.1 == c) = none := by
    rw [List.find?_eq_none]
    intro p hp
    have := upperTable_keys p hp
    simp only [beq_iff_eq]
    omega
  unfold upperN
  rw [if_neg h1, hn]

theorem isComb_small {c : Nat} (h : c < 768) : isComb c = false := by
  unfold isComb
  rw [decide_eq_false_iff_not]
  intro hm
  have := marks_ge c hm
  omega

theorem isWsN_ge {c : Nat} (h : 33 ≤ c) : isWsN c = false := by
  unfold isWsN
  rw [decide_eq_false_iff_not]
  intro hm
  have := wsChars_le c hm
  omega

theorem isWsN_le {c : Nat} (h : isWsN c = true) : c ≤ 32 := by
  unfold isWsN at h
  rw [decide_eq_true_eq] at h
  exact wsChars_le c h

theorem mapDchar_self {c : Nat} (h1 : c ≠ 272) (h2 : c ≠ 273) : mapDchar c = c := by
  unfold mapDchar
  rw [if_neg h1, if_neg h2]

theorem nfd_out_self : ∀ c, ∀ d ∈ nfdChar c, nfdChar d = [d] := by
  intro c d hd
  rcases nfdChar_cases c with h | ⟨p, hp, _, he⟩
  · rw [h] at hd
    simp at hd
    subst hd
    exact h
  · rw [he] at hd
    have hall : ∀ q ∈ decompTable, ∀ d ∈ q.2, nfdChar d = [d] := by decide
    exact hall p hp d hd

theorem mapD_stage {d : Nat} (h1 : nfdChar d = [d]) (h2 : isComb d = false) :
    nfdChar (mapDchar d) = [mapDchar d] ∧ isComb (mapDchar d) = false ∧
      mapDchar (mapDchar d) = mapDchar d := by
  by_cases e1 : d = 272
  · subst e1
    decide
  · by_cases e2 : d = 273
    · subst e2
      decide
    · rw [mapDchar_self e1 e2]
      exact ⟨h1, h2, mapDchar_self e1 e2⟩

theorem upper_stage {e : Nat} (h1 : nfdChar e = [e]) (h2 : isComb e = false)
    (h3 : mapDchar e = e) :
    nfdChar (upperN e) = [upperN e] ∧ isComb (upperN e) = false ∧
      mapDchar (upperN e) = upperN e ∧ upperN (upperN e) = upperN e ∧
      isWsN (upperN e) = isWsN e := by
  rcases upperN_cases e with ⟨ha, hb, he⟩ | ⟨p, hp, hpc, _⟩ | he
  · rw [he]
    refine ⟨nfdChar_small (by omega), isComb_small (by omega),
      mapDchar_self (by omega) (by omega),
      upperN_small (by omega) (by omega), ?_⟩
    rw [isWsN_ge (by omega), isWsN_ge (by omega)]
  · exfalso
    have hall : ∀ q ∈ upperTable, q.1 = 273 ∨ ¬(nfdChar q.1 = [q.1]) := by decide
    rcases hall p hp with h273 | hnd
    · rw [hpc] at h273
      rw [h273] at h3
      exact absurd h3 (by decide)
    · rw [hpc] at hnd
      exact hnd h1
  · rw [he]
    exact ⟨h1, h2, h3, he, rfl⟩

theorem upper_stageN {e : Nat} (h1 : nfdChar e = [e]) (h2 : isComb e = false) :
    nfdChar (upperN e) = [upperN e] ∧ isComb (upperN e) = false ∧
      upperN (upperN e) = upperN e := by
  rcases upperN_cases e with ⟨ha, hb, he⟩ | ⟨p, hp, hpc, he⟩ | he
  · rw [he]
    exact ⟨nfdChar_small (by omega), isComb_small (by omega),
      upperN_small (by omega) (by omega)⟩
  · have hall : ∀ q ∈ upperTable, ¬(nfdChar q.1 = [q.1]) ∨
        (nfdChar q.2 = [q.2] ∧ isComb q.2 = false ∧ upperN q.2 = q.2) := by decide
    rcases hall p hp with hnd | hgood
    · exfalso
      rw [hpc] at hnd
      exact hnd h1
    · rw [he]
      exact hgood
  · rw [he]
    exact ⟨h1, h2, he⟩

/-! String-level identity and whitespace-structure lemmas. -/

theorem filter_id_of (p : Nat → Bool) :
    ∀ u : List Nat, (∀ c ∈ u, p c = true) → u.filter p = u := by
  intro u
  induction u with
  | nil => intro _; rfl
  | cons c r ih =>
    intro h
    rw [List.filter_cons, if_pos (h c (by simp)),
      ih (fun d hd => h d (List.mem_cons_of_mem _ hd))]

theorem map_id_of (f : Nat → Nat) :
    ∀ u : List Nat, (∀ c ∈ u, f c = c) → u.map f = u := by
  intro u
  induction u with
  | nil => intro _; rfl
  | cons c r ih =>
    intro h
    rw [List.map_cons, h c (by simp),
      ih (fun d hd => h d (List.mem_cons_of_mem _ hd))]

theorem nfdStr_id_of : ∀ u : UStr, (∀ c ∈ u, nfdChar c = [c]) → nfdStr u = u := by
  intro u
  induction u with
  | nil => intro _; rfl
  | cons c r ih =>
    intro h
    show nfdChar c ++ nfdStr r = c :: r
    rw [h c (by simp), ih (fun d hd => h d (List.mem_cons_of_mem _ hd))]
    rfl

theorem mem_nfdStr : ∀ u : UStr, ∀ d ∈ nfdStr u, ∃ c ∈ u, d ∈ nfdChar c := by
  intro u
  induction u with
  | nil => intro d hd; exact absurd hd (by simp [nfdStr])
  | cons c r ih =>
    intro d hd
    rcases List.mem_append.mp hd with h | h
    · exact ⟨c, by simp, h⟩
    · obtain ⟨c0, hc0, hdc⟩ := ih d h
      exact ⟨c0, List.mem_cons_of_mem _ hc0, hdc⟩

def headNotWs : List Nat → Bool
  | [] => true
  | c :: _ => !isWsN c

def noTwoAdjWs : List Nat → Bool
  | [] => true
  | [_] => true
  | a :: b :: r => (!(isWsN a && isWsN b)) && noTwoAdjWs (b :: r)

def allWs32 (u : List Nat) : Bool := u.all (fun c => !isWsN c || c == 32)

theorem noTwoAdj_tail {c : Nat} {r : List Nat} (h : noTwoAdjWs (c :: r) = true) :
    noTwoAdjWs r = true := by
  cases r with
  | nil => rfl
  | cons b r' =>
    simp only [noTwoAdjWs, Bool.and_eq_true] at h
    exact h.2

theorem noTwoAdj_cons {a : Nat} {l : List Nat} (ha : isWsN a = false)
    (hl : noTwoAdjWs l = true) : noTwoAdjWs (a :: l) = true := by
  cases l with
  | nil => rfl
  | cons b r =>
    simp only [noTwoAdjWs, Bool.and_eq_true]
    exact ⟨by simp [ha], hl⟩

theorem noTwoAdj_cons32 {l : List Nat} (hh : headNotWs l = true)
    (hl : noTwoAdjWs l = true) : noTwoAdjWs (32 :: l) = true := by
  cases l with
  | nil => rfl
  | cons b r =>
    simp only [noTwoAdjWs, Bool.and_eq_true]
    refine ⟨?_, hl⟩
    simp only [headNotWs] at hh
    cases hb : isWsN b with
    | false => simp [hb]
    | true => rw [hb] at hh; exact absurd hh (by decide)

theorem allWs32_tail {c : Nat} {r : List Nat} (h : allWs32 (c :: r) = true) :
    allWs32 r = true := by
  simp only [allWs32, List.all_cons, Bool.and_eq_true] at h
  exact h.2

theorem collapse_allWs32 : ∀ (u : List Nat) (b : Bool),
    allWs32 (collapseAux b u) = true := by
  intro u
  induction u with
  | nil => intro b; rfl
  | cons c r ih =>
    intro b
    cases hc : isWsN c with
    | true =>
      cases b with
      | true => simpa [collapseAux, hc] using ih true
      | false =>
        simp only [collapseAux, hc, if_true]
        simpa [allWs32, List.all_cons] using ih true
    | false =>
      simp only [collapseAux, hc]
      simpa [allWs32, List.all_cons, hc] using ih false

theorem collapse_structure : ∀ u : List Nat,
    (∀ b, noTwoAdjWs (collapseAux b u) = true) ∧
      headNotWs (collapseAux true u) = true := by
  intro u
  induction u with
  | nil => exact ⟨fun _ => rfl, rfl⟩
  | cons c r ih =>
    cases hc : isWsN c with
    | true =>
      constructor
      · intro b
        cases b with
        | true => simpa [collapseAux, hc] using ih.1 true
        | false =>
          simp only [collapseAux, hc, if_true]
          exact noTwoAdj_cons32 ih.2 (ih.1 true)
      · simpa [collapseAux, hc] using ih.2
    | false =>
      constructor
      · intro b
        simp only [collapseAux, hc, Bool.false_eq_true, if_false]
        exact noTwoAdj_cons hc (ih.1 false)
      · simp [collapseAux, hc, headNotWs]

theorem collapse_id : ∀ u : List Nat, noTwoAdjWs u = true → allWs32 u = true →
    collapseAux false u = u ∧ (headNotWs u = true → collapseAux true u = u) := by
  intro u
  induction u with
  | nil => exact fun _ _ => ⟨rfl, fun _ => rfl⟩
  | cons c r ih =>
    intro h1 h2
    have h1t : noTwoAdjWs r = true := noTwoAdj_tail h1
    have h2t : allWs32 r = true := allWs32_tail h2
    cases hc : isWsN c with
    | true =>
      have hc32 : c = 32 := by
        simp only [allWs32, List.all_cons, Bool.and_eq_true, hc] at h2
        have := h2.1
        simpa using this
      subst hc32
      have hhr : headNotWs r = true := by
        cases r with
        | nil => rfl
        | cons b r' =>
          simp only [noTwoAdjWs, Bool.and_eq_true] at h1
          have h32 : isWsN 32 = true := by decide
          have hb := h1.1
          rw [h32] at hb
          simp only [Bool.true_and] at hb
          simp only [headNotWs]
          cases hbb : isWsN b with
          | false => rfl
          | true => rw [hbb] at hb; exact absurd hb (by decide)
      constructor
      · have h32 : isWsN 32 = true := by decide
        have hr := (ih h1t h2t).2 hhr
        simp [collapseAux, h32, hr]
      · intro hh
        simp only [headNotWs] at hh
        exact absurd hh (by decide)
    | false =>
      constructor
      · have hr := (ih h1t h2t).1
        simp [collapseAux, hc, hr]
      · intro _
        have hr := (ih h1t h2t).1
        simp [collapseAux, hc, hr]

theorem mem_collapse : ∀ (u : List Nat) (b : Bool) (x : Nat),
    x ∈ collapseAux b u → x = 32 ∨ x ∈ u := by
  intro u
  induction u with
  | nil => intro b x hx; exact absurd hx (by simp [collapseAux])
  | cons c r ih =>
    intro b x hx
    cases hc : isWsN c with
    | true =>
      cases b with
      | true =>
        simp only [collapseAux, hc, if_true] at hx
        rcases ih true x hx with h | h
        · exact Or.inl h
        · exact Or.inr (List.mem_cons_of_mem _ h)
      | false =>
        simp only [collapseAux, hc, if_true] at hx
        rcases List.mem_cons.mp hx with h | h
        · exact Or.inl h
        · rcases ih true x h with h' | h'
          · exact Or.inl h'
          · exact Or.inr (List.mem_cons_of_mem _ h')
    | false =>
      simp only [collapseAux, hc, Bool.false_eq_true, if_false] at hx
      rcases List.mem_cons.mp hx with h | h
      · exact Or.inr (by simp [h])
      · rcases ih false x h with h' | h'
        · exact Or.inl h'
        · exact Or.inr (List.mem_cons_of_mem _ h')

theorem mem_dropWhile (p : Nat → Bool) :
    ∀ u : List Nat, ∀ x ∈ u.dropWhile p, x ∈ u := by
  intro u
  induction u with
  | nil => intro x hx; exact absurd hx (by simp)
  | cons c r ih =>
    intro x hx
    cases hc : p c with
    | true =>
      rw [List.dropWhile_cons, if_pos hc] at hx
      exact List.mem_cons_of_mem _ (ih x hx)
    | false =>
      rw [List.dropWhile_cons, if_neg (by simp [hc])] at hx
      exact hx

theorem mem_trimR : ∀ u : List Nat, ∀ x ∈ trimR u, x ∈ u := by
  intro u
  induction u with
  | nil => intro x hx; exact absurd hx (by simp [trimR])
  | cons c r ih =>
    intro x hx
    simp only [trimR] at hx
    split at hx
    · exact absurd hx (by simp)
    · rcases List.mem_cons.mp hx with h | h
      · simp [h]
      · exact List.mem_cons_of_mem _ (ih x h)

theorem mem_trim : ∀ u : List Nat, ∀ x ∈ trim u, x ∈ u := by
  intro u x hx
  exact mem_dropWhile isWsN u x (mem_trimR (trimL u) x hx)

theorem headNotWs_dropWhile : ∀ u : List Nat,
    headNotWs (u.dropWhile isWsN) = true := by
  intro u
  induction u with
  | nil => rfl
  | cons c r ih =>
    cases hc : isWsN c with
    | true => rw [List.dropWhile_cons, if_pos hc]; exact ih
    | false =>
      rw [List.dropWhile_cons, if_neg (by simp [hc])]
      simp [headNotWs, hc]

theorem trimR_head : ∀ u : List Nat, trimR u = [] ∨ (trimR u).head? = u.head? := by
  intro u
  cases u with
  | nil => exact Or.inl rfl
  | cons c r =>
    simp only [trimR]
    split
    · exact Or.inl rfl
    · exact Or.inr rfl

theorem headNotWs_trimR {u : List Nat} (h : headNotWs u = true) :
    headNotWs (trimR u) = true := by
  rcases trimR_head u with he | hh
  · rw [he]; rfl
  · cases hu : trimR u with
    | nil => rfl
    | cons c r =>
      rw [hu] at hh
      cases u with
      | nil => exact absurd hh (by simp)
      | cons c0 r0 =>
        simp only [List.head?] at hh
        have : c = c0 := by simpa using hh
        subst this
        simpa [headNotWs] using h

theorem noTwoAdj_dropWhile : ∀ u : List Nat, noTwoAdjWs u = true →
    noTwoAdjWs (u.dropWhile isWsN) = true := by
  intro u
  induction u with
  | nil => intro _; rfl
  | cons c r ih =>
    intro h
    cases hc : isWsN c with
    | true =>
      rw [List.dropWhile_cons, if_pos hc]
      exact ih (noTwoAdj_tail h)
    | false =>
      rw [List.dropWhile_cons, if_neg (by simp [hc])]
      exact h

theorem noTwoAdj_trimR : ∀ u : List Nat, noTwoAdjWs u = true →
    noTwoAdjWs (trimR u) = true := by
  intro u
  induction u with
  | nil => intro _; rfl
  | cons c r ih =>
    intro h
    simp only [trimR]
    split
    · rfl
    · have ht := ih (noTwoAdj_tail h)
      cases hr : trimR r with
      | nil => rfl
      | cons b rb =>
        rcases trimR_head r with he | hh
        · rw [he] at hr
          exact absurd hr (by simp)
        · rw [hr] at hh ht
          cases r with
          | nil => exact absurd hh (by simp)
          | cons b0 r0 =>
            have hb : b = b0 := by simpa using hh
            subst hb
            simp only [noTwoAdjWs, Bool.and_eq_true] at h ⊢
            exact ⟨h.1, ht⟩

theorem allWs32_sub {u v : List Nat} (hsub : ∀ x ∈ v, x ∈ u)
    (h : allWs32 u = true) : allWs32 v = true := by
  simp only [allWs32, List.all_eq_true] at h ⊢
  intro x hx
  exact h x (hsub x hx)

theorem dropWhile_of_headNot {u : List Nat} (h : headNotWs u = true) :
    u.dropWhile isWsN = u := by
  cases u with
  | nil => rfl
  | cons c r =>
    simp only [headNotWs] at h
    rw [List.dropWhile_cons, if_neg]
    simp only [Bool.not_eq_true'] at h
    simp [h]

theorem trimR_idem : ∀ u : List Nat, trimR (trimR u) = trimR u := by
  intro u
  induction u with
  | nil => rfl
  | cons c r ih =>
    simp only [trimR]
    split
    · rfl
    · rename_i hcond
      simp only [trimR, ih]
      rw [if_neg hcond]

theorem trim_trim (u : List Nat) : trim (trim u) = trim u := by
  have h1 : headNotWs (trimL u) = true := headNotWs_dropWhile u
  have h2 : headNotWs (trimR (trimL u)) = true := headNotWs_trimR h1
  show trimR (trimL (trimR (trimL u))) = trimR (trimL u)
  rw [show trimL (trimR (trimL u)) = trimR (trimL u) from dropWhile_of_headNot h2]
  exact trimR_idem _

theorem upperN_ws_self {c : Nat} (h : isWsN c = true) : upperN c = c := by
  have := isWsN_le h
  exact upperN_small (by omega) (by omega)

theorem isWsN_upperN (c : Nat) : isWsN (upperN c) = isWsN c := by
  rcases upperN_cases c with ⟨ha, hb, he⟩ | ⟨p, hp, hpc, he⟩ | he
  · rw [he, isWsN_ge (by omega), isWsN_ge (by omega)]
  · have hall : ∀ q ∈ upperTable, isWsN q.2 = isWsN q.1 := by decide
    rw [he, ← hpc]
    exact hall p hp
  · rw [he]

theorem dropWhile_upper (u : List Nat) :
    (u.map upperN).dropWhile isWsN = (u.dropWhile isWsN).map upperN := by
  induction u with
  | nil => rfl
  | cons c r ih =>
    rw [List.map_cons, List.dropWhile_cons, List.dropWhile_cons]
    cases hc : isWsN c with
    | true =>
      have hcu : isWsN (upperN c) = true := by rw [isWsN_upperN]; exact hc
      simp [hcu, ih]
    | false =>
      have hcu : isWsN (upperN c) = false := by rw [isWsN_upperN]; exact hc
      simp [hcu, ih]

theorem trimR_upper (u : List Nat) : trimR (u.map upperN) = (trimR u).map upperN := by
  induction u with
  | nil => rfl
  | cons c r ih =>
    rw [List.map_cons]
    simp only [trimR, ih]
    have hemp : ((trimR r).map upperN).isEmpty = (trimR r).isEmpty := by
      cases trimR r <;> rfl
    rw [hemp, isWsN_upperN]
    split
    · rfl
    · rw [List.map_cons]

theorem trim_upper (u : List Nat) : trim (u.map upperN) = (trim u).map upperN := by
  show trimR (trimL (u.map upperN)) = (trimR (trimL u)).map upperN
  rw [show trimL (u.map upperN) = (trimL u).map upperN from dropWhile_upper u,
    trimR_upper]

theorem collapse_upper : ∀ (u : List Nat) (b : Bool),
    collapseAux b (u.map upperN) = (collapseAux b u).map upperN := by
  intro u
  induction u with
  | nil => intro b; rfl
  | cons c r ih =>
    intro b
    rw [List.map_cons]
    cases hc : isWsN c with
    | true =>
      have hcu : isWsN (upperN c) = true := by rw [isWsN_upperN]; exact hc
      cases b with
      | true => simp only [collapseAux, hc, hcu, if_true]; exact ih true
      | false =>
        simp only [collapseAux, hc, hcu, if_true, Bool.false_eq_true, if_false]
        rw [List.map_cons, ih true]
        have : upperN 32 = 32 := by decide
        rw [this]
    | false =>
      have hcu : isWsN (upperN c) = false := by rw [isWsN_upperN]; exact hc
      simp only [collapseAux, hc, hcu, Bool.false_eq_true, if_false]
      rw [List.map_cons, ih false]

/-- Characters fixed by every stage of the import-path normalizer. -/
def charFixedR (c : Nat) : Prop :=
  nfdChar c = [c] ∧ isComb c = false ∧ mapDchar c = c ∧ upperN c = c

/-- Characters fixed by every stage of the processing-path normalizer. -/
def charFixedN (c : Nat) : Prop :=
  nfdChar c = [c] ∧ isComb c = false ∧ upperN c = c

theorem charFixedR_N {c : Nat} (h : charFixedR c) : charFixedN c :=
  ⟨h.1, h.2.1, h.2.2.2⟩

theorem normT_chars (s : UStr) : ∀ c ∈ normT s, charFixedN c := by
  intro c hc
  have hc1 : c ∈ upperStr (stripComb (nfdStr s)) := mem_trim _ c hc
  obtain ⟨d, hd, rfl⟩ := List.mem_map.mp hc1
  have hd1 := List.mem_filter.mp hd
  have hnd : nfdChar d = [d] := by
    obtain ⟨c0, _, hd0⟩ := mem_nfdStr _ d hd1.1
    exact nfd_out_self c0 d hd0
  have hcomb : isComb d = false := by simpa using hd1.2
  exact upper_stageN hnd hcomb

theorem rduT_chars (s : UStr) : ∀ c ∈ rduT s, charFixedR c := by
  intro c hc
  have hc1 : c ∈ upperStr (trim (collapseWs (mapDStr (stripComb (nfdStr (trim s)))))) := hc
  obtain ⟨e, he, rfl⟩ := List.mem_map.mp hc1
  have he1 : e ∈ collapseWs (mapDStr (stripComb (nfdStr (trim s)))) := mem_trim _ e he
  have hprops : nfdChar e = [e] ∧ isComb e = false ∧ mapDchar e = e := by
    rcases mem_collapse _ false e he1 with h32 | hm
    · subst h32
      refine ⟨by decide, by decide, by decide⟩
    · obtain ⟨d, hd, rfl⟩ := List.mem_map.mp hm
      have hd1 := List.mem_filter.mp hd
      have hnd : nfdChar d = [d] := by
        obtain ⟨c0, _, hd0⟩ := mem_nfdStr _ d hd1.1
        exact nfd_out_self c0 d hd0
      have hcomb : isComb d = false := by simpa using hd1.2
      exact mapD_stage hnd hcomb
  have h := upper_stage hprops.1 hprops.2.1 hprops.2.2
  exact ⟨h.1, h.2.1, h.2.2.1, h.2.2.2.1⟩

theorem nfd_fixed_id {u : UStr} (h : ∀ c ∈ u, charFixedN c) : nfdStr u = u :=
  nfdStr_id_of u (fun c hc => (h c hc).1)

theorem strip_fixed_id {u : UStr} (h : ∀ c ∈ u, charFixedN c) : stripComb u = u :=
  filter_id_of _ u (fun c hc => by rw [(h c hc).2.1]; rfl)

theorem upper_fixed_id {u : UStr} (h : ∀ c ∈ u, charFixedN c) : upperStr u = u :=
  map_id_of _ u (fun c hc => (h c hc).2.2)

theorem mapD_fixed_id {u : UStr} (h : ∀ c ∈ u, charFixedR c) : mapDStr u = u :=
  map_id_of _ u (fun c hc => (h c hc).2.2.1)

theorem trim_upper_trim_self (v : List Nat) :
    trim (upperStr (trim v)) = upperStr (trim v) := by
  show trim ((trim v).map upperN) = (trim v).map upperN
  rw [trim_upper, trim_trim]

theorem collapse_upper_trim_self (M : List Nat) :
    collapseWs (upperStr (trim (collapseWs M))) = upperStr (trim (collapseWs M)) := by
  have hC1 : noTwoAdjWs (collapseWs M) = true := (collapse_structure M).1 false
  have hC2 : allWs32 (collapseWs M) = true := collapse_allWs32 M false
  have hT1 : noTwoAdjWs (trim (collapseWs M)) = true :=
    noTwoAdj_trimR _ (noTwoAdj_dropWhile _ hC1)
  have hT2 : allWs32 (trim (collapseWs M)) = true :=
    allWs32_sub (mem_trim (collapseWs M)) hC2
  show collapseAux false ((trim (collapseWs M)).map upperN) =
    (trim (collapseWs M)).map upperN
  rw [collapse_upper, (collapse_id _ hT1 hT2).1]

theorem rduT_trim_self (s : UStr) : trim (rduT s) = rduT s :=
  trim_upper_trim_self _

theorem rduT_collapse_self (s : UStr) : collapseWs (rduT s) = rduT s :=
  collapse_upper_trim_self _

theorem normT_trim_self (s : UStr) : trim (normT s) = normT s := by
  show trim (trim (upperStr (stripComb (nfdStr s)))) =
    trim (upperStr (stripComb (nfdStr s)))
  exact trim_trim _

/-- normalize of edengue_processing.py is idempotent on strings. -/
theorem normT_idem (s : UStr) : normT (normT s) = normT s := by
  have hfix := normT_chars s
  show trim (upperStr (stripComb (nfdStr (normT s)))) = normT s
  rw [nfd_fixed_id hfix, strip_fixed_id hfix, upper_fixed_id hfix,
    normT_trim_self]

/-- remove_diacritics_upper of edengue_import.py is idempotent on
strings. -/
theorem rduT_idem (s : UStr) : rduT (rduT s) = rduT s := by
  have hfixR := rduT_chars s
  have hfixN : ∀ c ∈ rduT s, charFixedN c := fun c hc => charFixedR_N (hfixR c hc)
  show upperStr (trim (collapseWs (mapDStr (stripComb (nfdStr (trim (rduT s))))))) =
    rduT s
  rw [rduT_trim_self, nfd_fixed_id hfixN, strip_fixed_id hfixN,
    mapD_fixed_id hfixR, rduT_collapse_self, rduT_trim_self, upper_fixed_id hfixN]

theorem nfd_mapD_no_dstroke (c : Nat) :
    ∀ d ∈ nfdChar (mapDchar c), d ≠ 272 ∧ d ≠ 273 := by
  by_cases h1 : c = 272
  · subst h1
    decide
  · by_cases h2 : c = 273
    · subst h2
      decide
    · rw [mapDchar_self h1 h2]
      intro d hd
      rcases nfdChar_cases c with he | ⟨p, hp, _, he⟩
      · rw [he] at hd
        simp at hd
        subst hd
        exact ⟨h1, h2⟩
      · rw [he] at hd
        have hall : ∀ q ∈ decompTable, ∀ d ∈ q.2, d ≠ 272 ∧ d ≠ 273 := by decide
        exact hall p hp d hd

theorem rda_no_dstroke (s : UStr) :
    ∀ d ∈ remove_diacritics_ascii s, d ≠ 272 ∧ d ≠ 273 := by
  intro d hd
  have hd1 : d ∈ nfdStr (mapDStr s) := (List.mem_filter.mp hd).1
  obtain ⟨c0, hc0, hdc⟩ := mem_nfdStr _ d hd1
  obtain ⟨c, _, rfl⟩ := List.mem_map.mp hc0
  exact nfd_mapD_no_dstroke c d hdc

/-- The string Đà Nẵng as code points. -/
def daNang : UStr := [272, 224, 32, 78, 7861, 110, 103]

/-- C9: the text normalizers used for key fields are idempotent: for every
input x, applying remove_diacritics_upper (edengue_import.py) twice equals
applying it once, and likewise for normalize (edengue_processing.py); null
inputs propagate unchanged. -/
theorem C9_normalizers_idempotent (x : Option UStr) :
    remove_diacritics_upper (remove_diacritics_upper x) = remove_diacritics_upper x ∧
      normalize (normalize x) = normalize x := by
  cases x with
  | none => exact ⟨rfl, rfl⟩
  | some s =>
    constructor
    · show some (rduT (rduT s)) = some (rduT s)
      rw [rduT_idem]
    · show some (normT (normT s)) = some (normT s)
      rw [normT_idem]

/-- C9 witness: idempotence evaluated at the Vietnamese test string. -/
theorem C9_normalizers_idempotent_witness :
    remove_diacritics_upper (remove_diacritics_upper (some daNang)) =
        remove_diacritics_upper (some daNang) ∧
      normalize (normalize (some daNang)) = normalize (some daNang) :=
  C9_normalizers_idempotent (some daNang)

/-- C3 counterexample: normalize of edengue_processing.py is one of the
normalizers used for the key fields (it produces both province and
district there), yet it maps Đà Nẵng to ĐA NANG, not to the DA NANG the
claim requires: Đ survives because NFD does not decompose it and this
normalizer has no Đ-to-D replacement. -/
theorem C3_counterexample :
    normalize (some daNang) = some [272, 65, 32, 78, 65, 78, 71] ∧
      ([272, 65, 32, 78, 65, 78, 71] : UStr) ≠ [68, 65, 32, 78, 65, 78, 71] := by
  constructor
  · decide
  · decide

/-- C3 amended: the normalizers remove_diacritics_upper
(edengue_import.py) and remove_diacritics_ascii
(fill_edengue_from_dmoss.py) do map Đ/đ to D/d — no Đ or đ ever survives
in their output, and Đà Nẵng yields DA NANG (respectively Da Nang) — while
normalize (edengue_processing.py) performs no such mapping and yields
ĐA NANG. -/
theorem C3_dstroke_mapping (s : UStr) :
    (272 ∉ rduT s ∧ 273 ∉ rduT s) ∧
      (272 ∉ remove_diacritics_ascii s ∧ 273 ∉ remove_diacritics_ascii s) ∧
      rduT daNang = [68, 65, 32, 78, 65, 78, 71] ∧
      remove_diacritics_ascii daNang = [68, 97, 32, 78, 97, 110, 103] ∧
      normT daNang = [272, 65, 32, 78, 65, 78, 71] := by
  refine ⟨⟨?_, ?_⟩, ⟨?_, ?_⟩, by decide, by decide, by decide⟩
  · intro hm
    have h := (rduT_chars s 272 hm).2.2.1
    exact absurd h (by decide)
  · intro hm
    have h := (rduT_chars s 273 hm).2.2.1
    exact absurd h (by decide)
  · intro hm
    exact absurd rfl (rda_no_dstroke s 272 hm).1
  · intro hm
    exact absurd rfl (rda_no_dstroke s 273 hm).2

/-- C3 witness: the amended statement evaluated at the test string. -/
theorem C3_dstroke_mapping_witness :
    (272 ∉ rduT daNang ∧ 273 ∉ rduT daNang) ∧
      (272 ∉ remove_diacritics_ascii daNang ∧
        273 ∉ remove_diacritics_ascii daNang) ∧
      rduT daNang = [68, 65, 32, 78, 65, 78, 71] ∧
      remove_diacritics_ascii daNang = [68, 97, 32, 78, 97, 110, 103] ∧
      normT daNang = [272, 65, 32, 78, 65, 78, 71] :=
  C3_dstroke_mapping daNang

/-- C10: for every row, resolved result-column list and serotype token,
detect_den_from_cols returns true exactly when some listed column holds a
non-null value whose string form, with all minus-hyphen characters removed
and then upper-cased, contains the token as a substring; consequently a
cell reading den-1 sets DEN1, and a cell reading DEN12 sets DEN1 as
well. -/
theorem C10_den_detection (row : UStr → Option Cell) (cols : List UStr) (tok : UStr) :
    (detect_den_from_cols row cols tok = true ↔
      ∃ c ∈ cols, ∃ v, row c = some v ∧ v ≠ Cell.blank ∧
        infixN tok (upperStr ((showCell v).filter (fun c2 => !(c2 == 45)))) = true) ∧
      detect_den_from_cols (fun _ => some (Cell.str [100, 101, 110, 45, 49]))
        [[82]] (denTok 1) = true ∧
      detect_den_from_cols (fun _ => some (Cell.str [68, 69, 78, 49, 50]))
        [[82]] (denTok 1) = true := by
  refine ⟨?_, by decide, by decide⟩
  unfold detect_den_from_cols
  rw [List.any_eq_true]
  constructor
  · rintro ⟨c, hc, hf⟩
    refine ⟨c, hc, ?_⟩
    cases hr : row c with
    | none =>
      rw [hr] at hf
      simp at hf
    | some v =>
      cases v with
      | blank =>
        rw [hr] at hf
        simp at hf
      | str s =>
        rw [hr] at hf
        exact ⟨Cell.str s, rfl, by simp, hf⟩
      | num n =>
        rw [hr] at hf
        exact ⟨Cell.num n, rfl, by simp, hf⟩
  · rintro ⟨c, hc, v, hv, hnb, hinf⟩
    refine ⟨c, hc, ?_⟩
    rw [hv]
    cases v with
    | blank => exact absurd rfl hnb
    | str s => exact hinf
    | num n => exact hinf

/-- C10 witness: the characterization applied to a concrete single-column
row holding the text den-1. -/
theorem C10_den_detection_witness :
    ((detect_den_from_cols (fun _ => some (Cell.str [100, 101, 110, 45, 49]))
        [[82]] (denTok 1) = true ↔
      ∃ c ∈ [[82]], ∃ v,
        (fun (_ : UStr) => some (Cell.str [100, 101, 110, 45, 49])) c = some v ∧
          v ≠ Cell.blank ∧
          infixN (denTok 1)
            (upperStr ((showCell v).filter (fun c2 => !(c2 == 45)))) = true) ∧
      detect_den_from_cols (fun _ => some (Cell.str [100, 101, 110, 45, 49]))
        [[82]] (denTok 1) = true ∧
      detect_den_from_cols (fun _ => some (Cell.str [68, 69, 78, 49, 50]))
        [[82]] (denTok 1) = true) :=
  C10_den_detection (fun _ => some (Cell.str [100, 101, 110, 45, 49])) [[82]] (denTok 1)

/-- Column resolution as the claim words it (clearly spec-side, for
comparison with the source's col_by_index_or_name): a token parsing as a
non-negative integer within the column count resolves positionally, any
other token falls through to exact then substring name matching. -/
def specResolve (cols : List UStr) : Option ColTok → Option UStr
  | none => none
  | some (ColTok.intT i) =>
    if 0 ≤ i ∧ i.toNat < cols.length then cols[i.toNat]? else none
  | some (ColTok.strT s) =>
    if isDigitStr s ∧ digitsToNat s < cols.length then cols[digitsToNat s]?
    else
      match cols.find? (fun c => c == s) with
      | some c => some c
      | none => cols.find? (fun c => infixN (upperStr s) (upperStr c))

/-- C4 counterexample: on a table whose single column is labelled 99, the
token 99 resolves to nothing — the source returns None from inside the
integer branch when the position is out of range, never reaching the exact
name match the claim prescribes; and the negative integer token -1, which
the claim would send to (failing) name matching, actually resolves to the
last column by Python indexing. -/
theorem C4_counterexample :
    col_by_index_or_name [[57, 57]] (some (ColTok.strT [57, 57])) = none ∧
      specResolve [[57, 57]] (some (ColTok.strT [57, 57])) = some [57, 57] ∧
      col_by_index_or_name [[65], [66]] (some (ColTok.intT (-1))) = some [66] ∧
      specResolve [[65], [66]] (some (ColTok.intT (-1))) = none := by
  refine ⟨by decide, by decide, by decide, by decide⟩

/-- C4 amended: integer-like tokens resolve purely positionally and never
fall back to name matching — a non-negative integer (or digit string)
within the column count returns that zero-based position, a digit string
or non-negative integer out of range returns not-found, and a negative
integer indexes from the end when within range (not-found otherwise);
only a non-digit string token is name-matched, exactly first then by
case-insensitive substring, first match winning. -/
theorem C4_resolution (cols : List UStr) :
    (∀ s : UStr, isDigitStr s = true → digitsToNat s < cols.length →
      col_by_index_or_name cols (some (ColTok.strT s)) = cols[digitsToNat s]?) ∧
    (∀ s : UStr, isDigitStr s = true → cols.length ≤ digitsToNat s →
      col_by_index_or_name cols (some (ColTok.strT s)) = none) ∧
    (∀ i : ℤ, 0 ≤ i → i.toNat < cols.length →
      col_by_index_or_name cols (some (ColTok.intT i)) = cols[i.toNat]?) ∧
    (∀ i : ℤ, 0 ≤ i → cols.length ≤ i.toNat →
      col_by_index_or_name cols (some (ColTok.intT i)) = none) ∧
    (∀ i : ℤ, i < 0 → i.natAbs ≤ cols.length →
      col_by_index_or_name cols (some (ColTok.intT i)) =
        cols[(cols.length - i.natAbs)]?) ∧
    (∀ i : ℤ, i < 0 → cols.length < i.natAbs →
      col_by_index_or_name cols (some (ColTok.intT i)) = none) ∧
    (∀ s : UStr, isDigitStr s = false →
      col_by_index_or_name cols (some (ColTok.strT s)) =
        (match cols.find? (fun c => c == s) with
         | some c => some c
         | none => cols.find? (fun c => infixN (upperStr s) (upperStr c)))) ∧
    col_by_index_or_name cols none = none := by
  refine ⟨?_, ?_, ?_, ?_, ?_, ?_, ?_, rfl⟩
  · intro s h1 h2
    simp only [col_by_index_or_name]
    rw [if_pos h1, if_pos h2]
  · intro s h1 h2
    simp only [col_by_index_or_name]
    rw [if_pos h1, if_neg (by omega)]
  · intro i h1 h2
    simp only [col_by_index_or_name]
    rw [if_pos h1, if_pos h2]
  · intro i h1 h2
    simp only [col_by_index_or_name]
    rw [if_pos h1, if_neg (by omega)]
  · intro i h1 h2
    simp only [col_by_index_or_name]
    rw [if_neg (by omega), if_pos h2]
  · intro i h1 h2
    simp only [col_by_index_or_name]
    rw [if_neg (by omega), if_neg (by omega)]
  · intro s h1
    simp only [col_by_index_or_name]
    rw [if_neg (by simp [h1])]

/-- C4 witness: positional precedence evaluated concretely — token 0 on a
two-column table whose first column is labelled 0 returns that column by
position (and the name-matching clauses at a non-digit token). -/
theorem C4_resolution_witness :
    isDigitStr [48] = true ∧ digitsToNat [48] < ([[48], [66]] : List UStr).length ∧
      col_by_index_or_name [[48], [66]] (some (ColTok.strT [48])) =
        ([[48], [66]] : List UStr)[digitsToNat [48]]? :=
  ⟨by decide, by decide,
    (C4_resolution [[48], [66]]).1 [48] (by decide) (by decide)⟩

/-- C6: for every grid, month-column start offset and five metric row
offsets, read_dmoss_sheet produces exactly 12 records, one per calendar
month 1-12 regardless of the grid's size; the record for month i+1 reads
cell [metric_row, start+i] for each of the five metrics, and a blank (or
absent) source cell surfaces as null, not zero. -/
theorem C6_grid_metric (d : DF) (d1 d2 d3 d4 tot st : Nat) :
    (read_dmoss_sheet d d1 d2 d3 d4 tot st).length = 12 ∧
      (read_dmoss_sheet d d1 d2 d3 d4 tot st).map (fun r => r.month) =
        [1, 2, 3, 4, 5, 6, 7, 8, 9, 10, 11, 12] ∧
      (∀ i, i < 12 →
        (read_dmoss_sheet d d1 d2 d3 d4 tot st).getD i
            ⟨0, none, none, none, none, none⟩ =
          { month := i + 1
            den1 := dmossGetAt d d1 (st + i)
            den2 := dmossGetAt d d2 (st + i)
            den3 := dmossGetAt d d3 (st + i)
            den4 := dmossGetAt d d4 (st + i)
            total := dmossGetAt d tot (st + i) }) ∧
      (∀ r c, cellAt d r c = Cell.blank → dmossGetAt d r c = none) := by
  refine ⟨rfl, rfl, ?_, ?_⟩
  · intro i hi
    interval_cases i <;> rfl
  · intro r c h
    simp [dmossGetAt, dmossGet, h]

/-- C6 witness: the reading correspondence discharged at month index 0 on
a concrete two-row grid. -/
theorem C6_grid_metric_witness :
    (read_dmoss_sheet ⟨13, [[Cell.blank],
        [Cell.blank, Cell.num (PyNum.floatV 4), Cell.blank]]⟩ 1 1 1 1 1 1).getD 0
        ⟨0, none, none, none, none, none⟩ =
      { month := 1
        den1 := dmossGetAt ⟨13, [[Cell.blank],
          [Cell.blank, Cell.num (PyNum.floatV 4), Cell.blank]]⟩ 1 (1 + 0)
        den2 := dmossGetAt ⟨13, [[Cell.blank],
          [Cell.blank, Cell.num (PyNum.floatV 4), Cell.blank]]⟩ 1 (1 + 0)
        den3 := dmossGetAt ⟨13, [[Cell.blank],
          [Cell.blank, Cell.num (PyNum.floatV 4), Cell.blank]]⟩ 1 (1 + 0)
        den4 := dmossGetAt ⟨13, [[Cell.blank],
          [Cell.blank, Cell.num (PyNum.floatV 4), Cell.blank]]⟩ 1 (1 + 0)
        total := dmossGetAt ⟨13, [[Cell.blank],
          [Cell.blank, Cell.num (PyNum.floatV 4), Cell.blank]]⟩ 1 (1 + 0) } :=
  (C6_grid_metric ⟨13, [[Cell.blank],
    [Cell.blank, Cell.num (PyNum.floatV 4), Cell.blank]]⟩ 1 1 1 1 1 1).2.2.1
    0 (by decide)

/-- A one-row grid whose marker row holds the digit cells 1..5 in columns
3..7; used as the concrete input of several counterexamples and
witnesses. -/
def cexGrid : DF :=
  ⟨8, [[Cell.str [84, 67], Cell.blank, Cell.blank, Cell.str [49],
    Cell.str [50], Cell.str [51], Cell.str [52], Cell.str [53]]]⟩

def cexSheets : List (UStr × DF) := [([84, 55], cexGrid)]

/-- C1 counterexample: a full concrete call of the heuristic pipeline in
which the caller supplies the province name X, the sheet name T7, month
bounds 1 and 12, and column offsets 3,4,5,6,7 — no argument carries the
value 2025 — yet the emitted record's year is 2025: the year is the
hard-coded literal of extract_tc_rows_from_sheet, not a caller-supplied
constant (the pipeline has no year parameter at all). -/
theorem C1_counterexample :
    (process_file_to_edengue cexSheets [88] 1 12 defaultColMap).map
        (fun r => r.year) = [2025] ∧
      (2025 : ℤ) ∉ ([1, 12, 3, 4, 5, 6, 7] : List ℤ) := by
  refine ⟨by decide, by decide⟩

/-- C1 amended: every record emitted by process_file_to_edengue carries
the hard-coded year 2025, and its month is the first run of digits parsed
from the enclosing sheet's name (and lies within the caller's inclusive
month bounds). -/
theorem C1_year_and_month (sheets : List (UStr × DF)) (provName : UStr)
    (monthMin monthMax : Nat) (cm : ColMap) :
    ∀ r ∈ process_file_to_edengue sheets provName monthMin monthMax cm,
      r.year = 2025 ∧ ∃ p ∈ sheets, firstDigitRun p.1 = some r.month ∧
        monthMin ≤ r.month ∧ r.month ≤ monthMax := by
  intro r hr
  simp only [process_file_to_edengue] at hr
  rw [List.mem_flatMap] at hr
  obtain ⟨p, hp, hrp⟩ := hr
  split at hrp
  · exact absurd hrp (by simp)
  · rename_i m hm
    split at hrp
    · rename_i hb
      have hy : r.year = 2025 ∧ r.month = m := by
        simp only [extract_tc_rows_from_sheet] at hrp
        rw [List.mem_map] at hrp
        obtain ⟨idx, _, hre⟩ := hrp
        rw [← hre]
        exact ⟨rfl, rfl⟩
      refine ⟨hy.1, p, hp, ?_, ?_, ?_⟩
      · rw [hy.2]
        exact hm
      · rw [hy.2]
        exact hb.1
      · rw [hy.2]
        exact hb.2
    · exact absurd hrp (by simp)

/-- C1 witness: the amended statement discharged at the concrete pipeline
call of the counterexample. -/
theorem C1_year_and_month_witness :
    (⟨[88], unknownStr, 2025, 7, PyNum.intV 1, PyNum.intV 2, PyNum.intV 3,
        PyNum.intV 4, PyNum.intV 5⟩ : ImpRecord).year = 2025 ∧
      ∃ p ∈ cexSheets,
        firstDigitRun p.1 =
            some (⟨[88], unknownStr, 2025, 7, PyNum.intV 1, PyNum.intV 2,
              PyNum.intV 3, PyNum.intV 4, PyNum.intV 5⟩ : ImpRecord).month ∧
          1 ≤ (⟨[88], unknownStr, 2025, 7, PyNum.intV 1, PyNum.intV 2,
              PyNum.intV 3, PyNum.intV 4, PyNum.intV 5⟩ : ImpRecord).month ∧
          (⟨[88], unknownStr, 2025, 7, PyNum.intV 1, PyNum.intV 2,
              PyNum.intV 3, PyNum.intV 4, PyNum.intV 5⟩ : ImpRecord).month ≤ 12 :=
  C1_year_and_month cexSheets [88] 1 12 defaultColMap _ (by decide)

/-! Numeral denotation: a declarative reading of the cell-coercion rule,
for comparison with the safe_get computation. -/

/-- A nonempty all-digit string. -/
def digitsOnly (ds : UStr) : Prop := ds ≠ [] ∧ ∀ c ∈ ds, isDigitN c = true

/-- The unsigned numeral shapes and their rational values: either digits
alone, or digits dot digits. -/
def unsignedDenotes (u : UStr) (q : ℚ) : Prop :=
  (digitsOnly u ∧ q = (digitsToNat u : ℚ)) ∨
    (∃ ds fs, u = ds ++ 46 :: fs ∧ digitsOnly ds ∧ digitsOnly fs ∧
      q = (digitsToNat ds : ℚ) + (digitsToNat fs : ℚ) / (10 : ℚ) ^ fs.length)

/-- The numeral shape the source's regex accepts: an optional leading
minus sign before an unsigned numeral. -/
def numeralDenotes (t : UStr) (q : ℚ) : Prop :=
  (∃ u q0, t = 45 :: u ∧ unsignedDenotes u q0 ∧ q = -q0) ∨
    (t.head? ≠ some 45 ∧ unsignedDenotes t q)

/-- The numeral shape under the claim's words, which allow an optional
sign — plus or minus — before the digits (clearly spec-side, for
comparison with the source's minus-only pattern). -/
def claimDenotes (t : UStr) (q : ℚ) : Prop :=
  (∃ u q0, (t = 45 :: u ∧ q = -q0 ∨ t = 43 :: u ∧ q = q0) ∧ unsignedDenotes u q0) ∨
    (t.head? ≠ some 45 ∧ t.head? ≠ some 43 ∧ unsignedDenotes t q)

theorem drop_takeWhile (p : Nat → Bool) :
    ∀ u : List Nat, u.drop (u.takeWhile p).length = u.dropWhile p := by
  intro u
  induction u with
  | nil => rfl
  | cons c r ih =>
    cases hc : p c with
    | true =>
      rw [List.takeWhile_cons, if_pos hc, List.dropWhile_cons, if_pos hc]
      simpa using ih
    | false =>
      rw [List.takeWhile_cons, if_neg (by simp [hc]), List.dropWhile_cons,
        if_neg (by simp [hc])]
      rfl

theorem takeWhile_all (p : Nat → Bool) :
    ∀ u : List Nat, (∀ c ∈ u, p c = true) → u.takeWhile p = u := by
  intro u
  induction u with
  | nil => intro _; rfl
  | cons c r ih =>
    intro h
    rw [List.takeWhile_cons, if_pos (h c (by simp)),
      ih (fun d hd => h d (List.mem_cons_of_mem _ hd))]

theorem takeWhile_append_bad (p : Nat → Bool) {c : Nat} (hc : p c = false) :
    ∀ ds fs : List Nat, (∀ d ∈ ds, p d = true) →
      (ds ++ c :: fs).takeWhile p = ds := by
  intro ds
  induction ds with
  | nil =>
    intro fs _
    rw [List.nil_append, List.takeWhile_cons, if_neg (by simp [hc])]
  | cons d dr ih =>
    intro fs h
    rw [List.cons_append, List.takeWhile_cons, if_pos (h d (by simp)),
      ih fs (fun x hx => h x (List.mem_cons_of_mem _ hx))]

theorem dropWhile_append_bad (p : Nat → Bool) {c : Nat} (hc : p c = false) :
    ∀ ds fs : List Nat, (∀ d ∈ ds, p d = true) →
      (ds ++ c :: fs).dropWhile p = c :: fs := by
  intro ds
  induction ds with
  | nil =>
    intro fs _
    rw [List.nil_append, List.dropWhile_cons, if_neg (by simp [hc])]
  | cons d dr ih =>
    intro fs h
    rw [List.cons_append, List.dropWhile_cons, if_pos (h d (by simp))]
    exact ih fs (fun x hx => h x (List.mem_cons_of_mem _ hx))

theorem startsWith45_iff (t : UStr) :
    startsWithN [45] t = true ↔ ∃ u, t = 45 :: u := by
  cases t with
  | nil =>
    constructor
    · intro h
      exact absurd h (by decide)
    · rintro ⟨u, hu⟩
      exact absurd hu (by simp)
  | cons c r =>
    constructor
    · intro h
      simp only [startsWithN, Bool.and_eq_true] at h
      have : 45 = c := by simpa using h.1
      exact ⟨r, by rw [← this]⟩
    · rintro ⟨u, hu⟩
      cases hu
      rfl

theorem numValU_eq (ip fp fl : Nat) :
    numValU ip fp fl = (ip : ℚ) + (fp : ℚ) / (10 : ℚ) ^ fl := by
  unfold numValU
  rw [Rat.divInt_eq_div]
  have h10 : ((10 : ℚ)) ^ fl ≠ 0 := by positivity
  push_cast
  field_simp

theorem numValU_int (ip : Nat) : numValU ip 0 0 = (ip : ℚ) := by
  rw [numValU_eq]
  simp

theorem mem_takeWhile (p : Nat → Bool) :
    ∀ u : List Nat, ∀ x ∈ u.takeWhile p, p x = true := by
  intro u
  induction u with
  | nil => intro x hx; exact absurd hx (by simp)
  | cons c r ih =>
    intro x hx
    cases hc : p c with
    | true =>
      rw [List.takeWhile_cons, if_pos hc] at hx
      rcases List.mem_cons.mp hx with h | h
      · rw [h]; exact hc
      · exact ih x h
    | false =>
      rw [List.takeWhile_cons, if_neg (by simp [hc])] at hx
      exact absurd hx (by simp)

theorem parseUnsigned_sound {u : UStr} {q : ℚ} (h : parseUnsigned u = some q) :
    unsignedDenotes u q := by
  simp only [parseUnsigned] at h
  split at h
  · exact absurd h (by simp)
  · rename_i hne
    split at h
    · rename_i hrest
      have hq : q = numValU (digitsToNat (u.takeWhile isDigitN)) 0 0 :=
        (Option.some.injEq _ _ ▸ h).symm
      have hu : u = u.takeWhile isDigitN := by
        have h1 := List.takeWhile_append_dropWhile (p := isDigitN) (l := u)
        have h2 : u.dropWhile isDigitN = [] := by
          rw [← drop_takeWhile isDigitN u]
          exact List.isEmpty_iff.mp hrest
        rw [h2, List.append_nil] at h1
        exact h1.symm
      refine Or.inl ⟨⟨?_, ?_⟩, ?_⟩
      · intro he
        rw [← hu] at hne
        exact hne (by simp [he])
      · intro c hc
        rw [hu] at hc
        exact mem_takeWhile isDigitN u c hc
      · rw [hq, numValU_int]
        rw [← hu]
    · split at h
      · rename_i fs hfs
        split at h
        · rename_i hcond
          have hq : q = numValU (digitsToNat (u.takeWhile isDigitN))
              (digitsToNat fs) fs.length := (Option.some.injEq _ _ ▸ h).symm
          rw [Bool.and_eq_true] at hcond
          have hu : u = u.takeWhile isDigitN ++ 46 :: fs := by
            have h1 := List.takeWhile_append_dropWhile (p := isDigitN) (l := u)
            have h2 : u.dropWhile isDigitN = 46 :: fs := by
              rw [← drop_takeWhile isDigitN u]
              exact hfs
            rw [h2] at h1
            exact h1.symm
          refine Or.inr ⟨u.takeWhile isDigitN, fs, hu, ⟨?_, ?_⟩, ⟨?_, ?_⟩, ?_⟩
          · intro he
            exact hne (by simp [he])
          · exact mem_takeWhile isDigitN u
          · intro he
            rw [he] at hcond
            exact absurd hcond.1 (by decide)
          · exact fun c hc => List.all_eq_true.mp hcond.2 c hc
          · rw [hq, numValU_eq]
        · exact absurd h (by simp)
      · exact absurd h (by simp)

theorem parseUnsigned_complete {u : UStr} {q : ℚ} (hd : unsignedDenotes u q) :
    parseUnsigned u = some q := by
  rcases hd with ⟨⟨hne, hall⟩, hq⟩ | ⟨ds, fs, rfl, ⟨hdne, hdall⟩, ⟨hfne, hfall⟩, hq⟩
  · have hts : u.takeWhile isDigitN = u := takeWhile_all _ u hall
    have hemp : u.isEmpty = false := by
      cases u with
      | nil => exact absurd rfl hne
      | cons c r => rfl
    simp only [parseUnsigned, hts]
    have hnil : ([] : List Nat).isEmpty = true := rfl
    rw [if_neg (by simp [hemp]), List.drop_length, if_pos hnil, numValU_int, hq]
  · have h46 : isDigitN 46 = false := by decide
    have hts := takeWhile_append_bad isDigitN h46 ds fs hdall
    have hemp : ds.isEmpty = false := by
      cases ds with
      | nil => exact absurd rfl hdne
      | cons c r => rfl
    have hfemp : fs.isEmpty = false := by
      cases fs with
      | nil => exact absurd rfl hfne
      | cons c r => rfl
    simp only [parseUnsigned, hts]
    rw [List.drop_left, if_neg (by simp [hemp]),
      if_neg (by simp)]
    simp only [hfemp, Bool.not_false, Bool.true_and]
    rw [if_pos (List.all_eq_true.mpr hfall), numValU_eq, hq]

theorem startsWith45_false {t : UStr} (hh : t.head? ≠ some 45) :
    startsWithN [45] t = false := by
  cases t with
  | nil => rfl
  | cons c r =>
    have hc : ¬(45 = c) := by
      intro h
      exact hh (by rw [← h]; rfl)
    simp [startsWithN, hc]

/-- Soundness of the safe_get numeral matcher: whenever parseNum accepts,
the text has the declared numeral shape and the result is the collapsed
denoted rational. -/
theorem parseNum_sound {t : UStr} {p : PyNum} (h : parseNum t = some p) :
    ∃ q, numeralDenotes t q ∧ p = collapseNum q := by
  simp only [parseNum] at h
  cases hneg : startsWithN [45] t with
  | true =>
    obtain ⟨u, rfl⟩ := (startsWith45_iff t).mp hneg
    rw [hneg] at h
    simp only [if_true, List.drop_succ_cons, List.drop_zero] at h
    obtain ⟨q0, hq0, hp⟩ := Option.map_eq_some'.mp h
    refine ⟨-q0, Or.inl ⟨u, q0, rfl, parseUnsigned_sound hq0, rfl⟩, ?_⟩
    rw [← hp]
  | false =>
    rw [hneg] at h
    simp only [Bool.false_eq_true, if_false] at h
    obtain ⟨q0, hq0, hp⟩ := Option.map_eq_some'.mp h
    have hh : t.head? ≠ some 45 := by
      intro hhead
      cases t with
      | nil => exact absurd hhead (by simp)
      | cons c r =>
        have : c = 45 := by simpa using hhead
        subst this
        exact absurd hneg (by simp [startsWithN])
    exact ⟨q0, Or.inr ⟨hh, parseUnsigned_sound hq0⟩, by rw [← hp]⟩

/-- Completeness of the safe_get numeral matcher: every text of the
declared numeral shape is accepted with the collapsed denoted rational. -/
theorem parseNum_complete {t : UStr} {q : ℚ} (hd : numeralDenotes t q) :
    parseNum t = some (collapseNum q) := by
  rcases hd with ⟨u, q0, rfl, hu, rfl⟩ | ⟨hh, hu⟩
  · have hneg : startsWithN [45] (45 :: u) = true := rfl
    simp only [parseNum, hneg, if_true, List.drop_succ_cons, List.drop_zero]
    rw [parseUnsigned_complete hu]
    rfl
  · have hneg : startsWithN [45] t = false := startsWith45_false hh
    simp only [parseNum, hneg, Bool.false_eq_true, if_false]
    rw [parseUnsigned_complete hu]
    rfl

/-- C8 counterexample: the text +5 is numeric-looking under the claim's
words — an optional sign (here plus) followed by digits — so the claim
requires it to parse to the integer 5; but the source's pattern accepts
only a minus sign, and safe_get coerces +5 to 0. -/
theorem C8_counterexample :
    claimDenotes [43, 53] ((5 : ℕ) : ℚ) ∧
      safe_get (Cell.str [43, 53]) = PyNum.intV 0 ∧
      collapseNum ((5 : ℕ) : ℚ) = PyNum.intV 5 ∧
      PyNum.intV 5 ≠ PyNum.intV 0 := by
  refine ⟨?_, by decide, ?_, by decide⟩
  · refine Or.inl ⟨[53], ((5 : ℕ) : ℚ), Or.inr ⟨rfl, rfl⟩, Or.inl ⟨⟨?_, ?_⟩, rfl⟩⟩
    · simp
    · intro c hc
      have : c = 53 := by simpa using hc
      subst this
      decide
  · show collapseNum ((5 : ℕ) : ℚ) = PyNum.intV 5
    have h5 : ((5 : ℕ) : ℚ).den = 1 := Rat.den_natCast 5
    have h5n : ((5 : ℕ) : ℚ).num = 5 := Rat.num_natCast 5
    unfold collapseNum
    rw [if_pos h5, h5n]

/-- C8 amended: safe_get coerces a fetched cell as follows — blank or
missing maps to the integer 0; text is stripped, its commas removed, and
if the result is a numeral of the shape optional minus sign, digits,
optional decimal point with digits (the claim's optional sign narrowed to
minus only, and the commas stripped wherever they occur), it parses to
its exact decimal value, collapsed to an integer when it has no
fractional part (5.0 gives the int 5, 5.1 stays the float 51/10); any
other text maps to the integer 0; native numbers pass through. -/
theorem C8_cell_coercion :
    safe_get Cell.blank = PyNum.intV 0 ∧
      (∀ v, safe_get (Cell.num v) = v) ∧
      (∀ s q, numeralDenotes (removeCommas (trim s)) q →
        safe_get (Cell.str s) = collapseNum q) ∧
      (∀ s, (∀ q, ¬numeralDenotes (removeCommas (trim s)) q) →
        safe_get (Cell.str s) = PyNum.intV 0) ∧
      safe_get (Cell.str [53, 46, 48]) = PyNum.intV 5 ∧
      safe_get (Cell.str [53, 46, 49]) = PyNum.floatV (Rat.divInt 51 10) ∧
      (∀ d r c, safeGetAt d r c = safe_get (cellAt d r c)) := by
  refine ⟨rfl, fun v => rfl, ?_, ?_, by decide, by decide, fun d r c => rfl⟩
  · intro s q hq
    show (match parseNum (removeCommas (trim s)) with
      | some v => v
      | none => PyNum.intV 0) = collapseNum q
    rw [parseNum_complete hq]
  · intro s hq
    show (match parseNum (removeCommas (trim s)) with
      | some v => v
      | none => PyNum.intV 0) = PyNum.intV 0
    cases hp : parseNum (removeCommas (trim s)) with
    | none => rfl
    | some p =>
      obtain ⟨q, hden, _⟩ := parseNum_sound hp
      exact absurd hden (hq q)

/-- C8 witness: the numeral branch discharged at the concrete text 1.5. -/
theorem C8_cell_coercion_witness :
    numeralDenotes (removeCommas (trim [49, 46, 53]))
        ((digitsToNat [49] : ℚ) + (digitsToNat [53] : ℚ) / (10 : ℚ) ^ 1) ∧
      safe_get (Cell.str [49, 46, 53]) =
        collapseNum
          ((digitsToNat [49] : ℚ) + (digitsToNat [53] : ℚ) / (10 : ℚ) ^ 1) := by
  have hd : numeralDenotes (removeCommas (trim [49, 46, 53]))
      ((digitsToNat [49] : ℚ) + (digitsToNat [53] : ℚ) / (10 : ℚ) ^ 1) := by
    refine Or.inr ⟨by decide, Or.inr ⟨[49], [53], by decide, ⟨?_, ?_⟩, ⟨?_, ?_⟩, rfl⟩⟩
    · simp
    · intro c hc
      have : c = 49 := by simpa using hc
      subst this
      decide
    · simp
    · intro c hc
      have : c = 53 := by simpa using hc
      subst this
      decide
  exact ⟨hd, C8_cell_coercion.2.2.1 [49, 46, 53] _ hd⟩

/-! The district-label search of the heuristic path, characterized the
way the claim words it. -/

/-- The claim's reading of a usable label cell: the cell is not blank, its
trimmed text is the label, that text is nonempty, and no configured
boilerplate keyword occurs in it (comparison upper-cased on both
sides). -/
def specGood (kw : List UStr) (c : Cell) (s : UStr) : Prop :=
  c ≠ Cell.blank ∧ s = trim (showCell c) ∧ s ≠ [] ∧
    ∀ k ∈ kw, infixN (upperStr k) (upperStr s) = false

theorem goodLabel_iff (kw : List UStr) (c : Cell) (s : UStr) :
    goodLabel kw c = some s ↔ specGood kw c s := by
  cases c with
  | blank =>
    simp only [goodLabel, specGood]
    constructor
    · intro h
      exact absurd h (by simp)
    · rintro ⟨hb, _⟩
      exact absurd rfl hb
  | str s0 =>
    simp only [goodLabel, specGood]
    split
    · rename_i hemp
      constructor
      · intro h
        exact absurd h (by simp)
      · rintro ⟨_, hs, hne, _⟩
        rw [List.isEmpty_iff] at hemp
        rw [hemp] at hs
        exact absurd hs hne
    · rename_i hemp
      split
      · rename_i hany
        constructor
        · intro h
          exact absurd h (by simp)
        · rintro ⟨_, hs, _, hall⟩
          rw [List.any_eq_true] at hany
          obtain ⟨k, hk, hinf⟩ := hany
          have := hall k hk
          rw [← hs] at hinf
          rw [hinf] at this
          exact absurd this (by decide)
      · rename_i hany
        constructor
        · intro h
          have hs : s = trim (showCell (Cell.str s0)) := by
            have := (Option.some.injEq _ _ ▸ h)
            exact this.symm
          refine ⟨by simp, hs, ?_, ?_⟩
          · rw [hs]
            intro he
            rw [List.isEmpty_iff] at hemp
            exact hemp (by exact he)
          · intro k hk
            rw [hs]
            cases hik : infixN (upperStr k) (upperStr (trim (showCell (Cell.str s0)))) with
            | false => rfl
            | true =>
              exfalso
              exact hany (List.any_eq_true.mpr ⟨k, hk, hik⟩)
        · rintro ⟨_, hs, _, _⟩
          rw [hs]
  | num v =>
    simp only [goodLabel, specGood]
    split
    · rename_i hemp
      constructor
      · intro h
        exact absurd h (by simp)
      · rintro ⟨_, hs, hne, _⟩
        rw [List.isEmpty_iff] at hemp
        rw [hemp] at hs
        exact absurd hs hne
    · rename_i hemp
      split
      · rename_i hany
        constructor
        · intro h
          exact absurd h (by simp)
        · rintro ⟨_, hs, _, hall⟩
          rw [List.any_eq_true] at hany
          obtain ⟨k, hk, hinf⟩ := hany
          have := hall k hk
          rw [← hs] at hinf
          rw [hinf] at this
          exact absurd this (by decide)
      · rename_i hany
        constructor
        · intro h
          have hs : s = trim (showCell (Cell.num v)) := by
            have := (Option.some.injEq _ _ ▸ h)
            exact this.symm
          refine ⟨by simp, hs, ?_, ?_⟩
          · rw [hs]
            intro he
            rw [List.isEmpty_iff] at hemp
            exact hemp (by exact he)
          · intro k hk
            rw [hs]
            cases hik : infixN (upperStr k) (upperStr (trim (showCell (Cell.num v)))) with
            | false => rfl
            | true =>
              exfalso
              exact hany (List.any_eq_true.mpr ⟨k, hk, hik⟩)
        · rintro ⟨_, hs, _, _⟩
          rw [hs]

theorem goodLabel_none_iff (kw : List UStr) (c : Cell) :
    goodLabel kw c = none ↔ ∀ s, ¬specGood kw c s := by
  cases hg : goodLabel kw c with
  | none =>
    constructor
    · intro _ s hs
      have := (goodLabel_iff kw c s).mpr hs
      rw [hg] at this
      exact absurd this (by simp)
    · intro _
      rfl
  | some s0 =>
    constructor
    · intro h
      exact absurd h (by simp)
    · intro h
      exfalso
      exact h s0 ((goodLabel_iff kw c s0).mp hg)

theorem searchUp_none_iff (kw : List UStr) (d : DF) (col : Nat) :
    ∀ n, searchUp kw d col n = none ↔
      ∀ i, i < n → goodLabel kw (cellAt d i col) = none := by
  intro n
  induction n with
  | zero =>
    constructor
    · intro _ i hi
      omega
    · intro _
      rfl
  | succ n ih =>
    show (match goodLabel kw (cellAt d n col) with
      | some s => some s
      | none => searchUp kw d col n) = none ↔ _
    cases hg : goodLabel kw (cellAt d n col) with
    | some s =>
      constructor
      · intro h
        exact absurd h (by simp)
      · intro h
        rw [h n (by omega)] at hg
        exact absurd hg (by simp)
    | none =>
      constructor
      · intro h i hi
        rcases Nat.lt_succ_iff_lt_or_eq.mp hi with h1 | h1
        · exact (ih.mp h) i h1
        · rw [h1]
          exact hg
      · intro h
        exact ih.mpr (fun i hi => h i (by omega))

theorem searchUp_some_iff (kw : List UStr) (d : DF) (col : Nat) :
    ∀ n s, searchUp kw d col n = some s ↔
      ∃ i, i < n ∧ goodLabel kw (cellAt d i col) = some s ∧
        ∀ j, i < j → j < n → goodLabel kw (cellAt d j col) = none := by
  intro n
  induction n with
  | zero =>
    intro s
    constructor
    · intro h
      exact absurd h (by simp [searchUp])
    · rintro ⟨i, hi, _⟩
      omega
  | succ n ih =>
    intro s
    show (match goodLabel kw (cellAt d n col) with
      | some s => some s
      | none => searchUp kw d col n) = some s ↔ _
    cases hg : goodLabel kw (cellAt d n col) with
    | some s0 =>
      constructor
      · intro h
        have hs : s0 = s := by simpa using h
        subst hs
        exact ⟨n, by omega, hg, fun j hj1 hj2 => by omega⟩
      · rintro ⟨i, hi, hgood, hafter⟩
        rcases Nat.lt_succ_iff_lt_or_eq.mp hi with h1 | h1
        · have := hafter n h1 (by omega)
          rw [this] at hg
          exact absurd hg (by simp)
        · subst h1
          rw [hgood] at hg
          simpa using hg.symm
    | none =>
      rw [ih s]
      constructor
      · rintro ⟨i, hi, hgood, hafter⟩
        refine ⟨i, by omega, hgood, fun j hj1 hj2 => ?_⟩
        rcases Nat.lt_succ_iff_lt_or_eq.mp hj2 with h1 | h1
        · exact hafter j hj1 h1
        · rw [h1]
          exact hg
      · rintro ⟨i, hi, hgood, hafter⟩
        have hin : i ≠ n := by
          intro he
          rw [he, hg] at hgood
          exact absurd hgood (by simp)
        exact ⟨i, by omega, hgood, fun j hj1 hj2 => hafter j hj1 (by omega)⟩

theorem cellAt_oob {d : DF} (hwf : dfWF d = true) {r c : Nat}
    (hc : d.ncols ≤ c) : cellAt d r c = Cell.blank := by
  unfold cellAt
  cases hr : d.rows[r]? with
  | none => rfl
  | some row =>
    have hm : row ∈ d.rows := List.getElem?_mem hr
    have hlen : row.length = d.ncols := by
      have := List.all_eq_true.mp hwf row hm
      simpa using this
    have hnone : row[c]? = none := by
      rw [List.getElem?_eq_none_iff]
      omega
    simp [hr, hnone]

/-- The claim's description of the district search at one marker row of a
rectangular grid: a found label is the nearest preceding usable cell of
column 0 (usable: non-blank, nonempty trimmed text, no boilerplate
keyword), or — when column 0 has no usable cell above the marker — the
nearest preceding usable cell of column 1; the search is unresolved
exactly when neither column has a usable cell above, and the records then
carry the UNKNOWN placeholder: the third conjunct ties each emitted
record's district to the (normalized) search result at its marker row. -/
def C5Spec (kw : List UStr) (d : DF) (idx : Nat) : Prop :=
  (∀ s, findDistrict kw d idx = some s ↔
      ((∃ i, i < idx ∧ specGood kw (cellAt d i 0) s ∧
          ∀ j, i < j → j < idx → ∀ s2, ¬specGood kw (cellAt d j 0) s2) ∨
        ((∀ i, i < idx → ∀ s2, ¬specGood kw (cellAt d i 0) s2) ∧
          ∃ i, i < idx ∧ specGood kw (cellAt d i 1) s ∧
            ∀ j, i < j → j < idx → ∀ s2, ¬specGood kw (cellAt d j 1) s2))) ∧
    (findDistrict kw d idx = none ↔
      ((∀ i, i < idx → ∀ s2, ¬specGood kw (cellAt d i 0) s2) ∧
        (∀ i, i < idx → ∀ s2, ¬specGood kw (cellAt d i 1) s2))) ∧
    (∀ mv pn cm,
      (extract_tc_rows_from_sheet d mv pn cm kw).map (fun r => r.district) =
        (markerIdxs d).map (fun i => rduT ((findDistrict kw d i).getD unknownStr)))

/-- C5: the district label of every marker row is the nearest preceding
non-blank, non-boilerplate cell of column 0, with the same upward search
repeated over column 1 when column 0 yields nothing, and the fixed
placeholder UNKNOWN when still unresolved. -/
theorem C5_district_search (kw : List UStr) (d : DF) (idx : Nat)
    (hwf : dfWF d = true) : C5Spec kw d idx := by
  have hsome : ∀ col s, searchUp kw d col idx = some s ↔
      ∃ i, i < idx ∧ specGood kw (cellAt d i col) s ∧
        ∀ j, i < j → j < idx → ∀ s2, ¬specGood kw (cellAt d j col) s2 := by
    intro col s
    rw [searchUp_some_iff]
    constructor
    · rintro ⟨i, hi, hgood, hafter⟩
      exact ⟨i, hi, (goodLabel_iff kw _ s).mp hgood,
        fun j hj1 hj2 => (goodLabel_none_iff kw _).mp (hafter j hj1 hj2)⟩
    · rintro ⟨i, hi, hgood, hafter⟩
      exact ⟨i, hi, (goodLabel_iff kw _ s).mpr hgood,
        fun j hj1 hj2 => (goodLabel_none_iff kw _).mpr (hafter j hj1 hj2)⟩
  have hnone : ∀ col, searchUp kw d col idx = none ↔
      ∀ i, i < idx → ∀ s2, ¬specGood kw (cellAt d i col) s2 := by
    intro col
    rw [searchUp_none_iff]
    constructor
    · intro h i hi
      exact (goodLabel_none_iff kw _).mp (h i hi)
    · intro h i hi
      exact (goodLabel_none_iff kw _).mpr (h i hi)
  have hblank_none : ∀ col, d.ncols ≤ col →
      ∀ i, i < idx → ∀ s2, ¬specGood kw (cellAt d i col) s2 := by
    intro col hcol i hi s2 hs
    rw [cellAt_oob hwf hcol] at hs
    exact hs.1 rfl
  refine ⟨?_, ?_, ?_⟩
  · intro s
    unfold findDistrict
    by_cases h0 : d.ncols = 0
    · rw [if_pos h0]
      constructor
      · intro h
        exact absurd h (by simp)
      · rintro (⟨i, hi, hgood, _⟩ | ⟨_, i, hi, hgood, _⟩)
        · exact absurd hgood (hblank_none 0 (by omega) i hi s)
        · exact absurd hgood (hblank_none 1 (by omega) i hi s)
    · rw [if_neg h0]
      cases h0s : searchUp kw d 0 idx with
      | some s0 =>
        show some s0 = some s ↔ _
        constructor
        · intro h
          have hss : s0 = s := by simpa using h
          subst hss
          exact Or.inl ((hsome 0 s0).mp h0s)
        · rintro (hcol0 | ⟨hallnone, _⟩)
          · have := (hsome 0 s).mpr hcol0
            rw [h0s] at this
            exact this
          · have := (hnone 0).mpr hallnone
            rw [h0s] at this
            exact absurd this (by simp)
      | none =>
        have hall0 : ∀ i, i < idx → ∀ s2, ¬specGood kw (cellAt d i 0) s2 :=
          (hnone 0).mp h0s
        by_cases h1 : 1 < d.ncols
        · rw [if_pos h1]
          constructor
          · intro h
            exact Or.inr ⟨hall0, (hsome 1 s).mp h⟩
          · rintro (⟨i, hi, hgood, _⟩ | ⟨_, hfound⟩)
            · exact absurd hgood (hall0 i hi s)
            · exact (hsome 1 s).mpr hfound
        · rw [if_neg h1]
          constructor
          · intro h
            exact absurd h (by simp)
          · rintro (⟨i, hi, hgood, _⟩ | ⟨_, i, hi, hgood, _⟩)
            · exact absurd hgood (hall0 i hi s)
            · exact absurd hgood (hblank_none 1 (by omega) i hi s)
  · unfold findDistrict
    by_cases h0 : d.ncols = 0
    · rw [if_pos h0]
      constructor
      · intro _
        exact ⟨hblank_none 0 (by omega), hblank_none 1 (by omega)⟩
      · intro _
        rfl
    · rw [if_neg h0]
      cases h0s : searchUp kw d 0 idx with
      | some s0 =>
        show some s0 = none ↔ _
        constructor
        · intro h
          exact absurd h (by simp)
        · rintro ⟨hall0, _⟩
          have := (hnone 0).mpr hall0
          rw [h0s] at this
          exact absurd this (by simp)
      | none =>
        have hall0 := (hnone 0).mp h0s
        by_cases h1 : 1 < d.ncols
        · rw [if_pos h1]
          constructor
          · intro h
            exact ⟨hall0, (hnone 1).mp h⟩
          · rintro ⟨_, hall1⟩
            exact (hnone 1).mpr hall1
        · rw [if_neg h1]
          constructor
          · intro _
            exact ⟨hall0, hblank_none 1 (by omega)⟩
          · intro _
            rfl
  · intro mv pn cm
    simp only [extract_tc_rows_from_sheet, List.map_map]
    rfl

/-- The spec's example grid: boilerplate at the top, the label Quan 1 at
row 8 column 0, a blank row 9, and the marker TC at row 10. -/
def g5 : DF :=
  ⟨2, [[Cell.str [83, 7902, 32, 89, 32, 84, 69], Cell.blank],
    [Cell.blank, Cell.blank], [Cell.blank, Cell.blank],
    [Cell.blank, Cell.blank], [Cell.blank, Cell.blank],
    [Cell.blank, Cell.blank], [Cell.blank, Cell.blank],
    [Cell.blank, Cell.blank],
    [Cell.str [81, 117, 97, 110, 32, 49], Cell.blank],
    [Cell.blank, Cell.blank],
    [Cell.str [84, 67], Cell.str [57]]]⟩

/-- C5 witness: the characterization discharged at the spec's example grid
and its marker row 10. -/
theorem C5_district_search_witness : C5Spec badKeywords g5 10 :=
  C5_district_search badKeywords g5 10 (by decide)

theorem boolSum_countP (f : PRow → Bool) :
    ∀ l : List PRow, boolSum l f = l.countP f := by
  intro l
  induction l with
  | nil => rfl
  | cons r t ih =>
    show (if f r then 1 else 0) + boolSum t f = _
    rw [List.countP_cons, ih]
    cases hf : f r with
    | true => simp [Nat.add_comm]
    | false => simp

/-- C7: aggregation groups records by province, district, year and month,
with district in the grouping key exactly when at least one input record
has a non-null district; every input record's key appears in the output
(null month or district values form valid group keys and are not
dropped), distinct output rows have distinct keys, and within
each group the DEN1-DEN4 boolean flags are summed as 0/1 (the group's
count of true flags) and the total-test column is summed. -/
theorem C7_aggregation (rows : List PRow) :
    (includeDistrict rows = true ↔ ∃ r ∈ rows, r.district ≠ none) ∧
      (∀ r ∈ rows, ∃ g ∈ aggregate rows,
        g.key = keyOf (includeDistrict rows) r) ∧
      (∀ g1 ∈ aggregate rows, ∀ g2 ∈ aggregate rows, g1.key = g2.key → g1 = g2) ∧
      (∀ g ∈ aggregate rows,
        g.nden1 = (rows.filter
            (fun r => decide (keyOf (includeDistrict rows) r = g.key))).countP
          (fun r => r.den1) ∧
        g.nden2 = (rows.filter
            (fun r => decide (keyOf (includeDistrict rows) r = g.key))).countP
          (fun r => r.den2) ∧
        g.nden3 = (rows.filter
            (fun r => decide (keyOf (includeDistrict rows) r = g.key))).countP
          (fun r => r.den3) ∧
        g.nden4 = (rows.filter
            (fun r => decide (keyOf (includeDistrict rows) r = g.key))).countP
          (fun r => r.den4) ∧
        g.ntotal = ((rows.filter
            (fun r => decide (keyOf (includeDistrict rows) r = g.key))).map
          (fun r => r.total)).sum) ∧
      (includeDistrict rows = false → ∀ r1 r2 : PRow,
        r1.province = r2.province → r1.year = r2.year → r1.month = r2.month →
        keyOf (includeDistrict rows) r1 = keyOf (includeDistrict rows) r2) ∧
      (includeDistrict rows = true → ∀ r1 r2 : PRow, r1.district ≠ r2.district →
        keyOf (includeDistrict rows) r1 ≠ keyOf (includeDistrict rows) r2) := by
  refine ⟨?_, ?_, ?_, ?_, ?_, ?_⟩
  · unfold includeDistrict
    rw [List.any_eq_true]
    constructor
    · rintro ⟨r, hr, hs⟩
      exact ⟨r, hr, Option.isSome_iff_ne_none.mp hs⟩
    · rintro ⟨r, hr, hs⟩
      exact ⟨r, hr, Option.isSome_iff_ne_none.mpr hs⟩
  · intro r hr
    have hk : keyOf (includeDistrict rows) r ∈
        (rows.map (keyOf (includeDistrict rows))).dedup :=
      List.mem_dedup.mpr (List.mem_map_of_mem _ hr)
    exact ⟨_, List.mem_map_of_mem _ hk, rfl⟩
  · intro g1 hg1 g2 hg2 hk
    simp only [aggregate] at hg1 hg2
    obtain ⟨k1, _, rfl⟩ := List.mem_map.mp hg1
    obtain ⟨k2, _, rfl⟩ := List.mem_map.mp hg2
    have : k1 = k2 := hk
    rw [this]
  · intro g hg
    simp only [aggregate] at hg
    obtain ⟨k, hk, rfl⟩ := List.mem_map.mp hg
    exact ⟨boolSum_countP _ _, boolSum_countP _ _, boolSum_countP _ _,
      boolSum_countP _ _, rfl⟩
  · intro hf r1 r2 h1 h2 h3
    simp [keyOf, hf, h1, h2, h3]
  · intro ht r1 r2 hd hk
    exact hd (by simpa [keyOf, ht] using congrArg GKey.district hk)

/-- The spec's aggregator example: two records with identical key fields
(province HA NOI, null district, year 2021, month 5) and DEN1 flags true
and false. -/
def haNoiRow (b : Bool) : PRow :=
  { province := some [72, 65, 32, 78, 79, 73]
    district := none
    year := 2021
    month := some 5
    den1 := b
    den2 := false
    den3 := false
    den4 := false
    total := 1 }

/-- C7 witness: the sum characterization discharged on the spec's
two-record example, together with the concrete aggregate — one grouped
row with No.DEN1 equal to 1. -/
theorem C7_aggregation_witness :
    (∀ g ∈ aggregate [haNoiRow true, haNoiRow false],
      g.nden1 = ([haNoiRow true, haNoiRow false].filter
          (fun r => decide (keyOf
            (includeDistrict [haNoiRow true, haNoiRow false]) r = g.key))).countP
        (fun r => r.den1) ∧
      g.nden2 = ([haNoiRow true, haNoiRow false].filter
          (fun r => decide (keyOf
            (includeDistrict [haNoiRow true, haNoiRow false]) r = g.key))).countP
        (fun r => r.den2) ∧
      g.nden3 = ([haNoiRow true, haNoiRow false].filter
          (fun r => decide (keyOf
            (includeDistrict [haNoiRow true, haNoiRow false]) r = g.key))).countP
        (fun r => r.den3) ∧
      g.nden4 = ([haNoiRow true, haNoiRow false].filter
          (fun r => decide (keyOf
            (includeDistrict [haNoiRow true, haNoiRow false]) r = g.key))).countP
        (fun r => r.den4) ∧
      g.ntotal = (([haNoiRow true, haNoiRow false].filter
          (fun r => decide (keyOf
            (includeDistrict [haNoiRow true, haNoiRow false]) r = g.key))).map
        (fun r => r.total)).sum) ∧
      (aggregate [haNoiRow true, haNoiRow false]).map (fun g => g.nden1) = [1] ∧
      (aggregate [haNoiRow true, haNoiRow false]).length = 1 :=
  ⟨(C7_aggregation [haNoiRow true, haNoiRow false]).2.2.2.1, by decide, by decide⟩

theorem upperN_idem (c : Nat) : upperN (upperN c) = upperN c := by
  rcases upperN_cases c with ⟨ha, hb, he⟩ | ⟨p, hp, _, he⟩ | he
  · rw [he]
    exact upperN_small (by omega) (by omega)
  · have hall : ∀ q ∈ upperTable, upperN q.2 = q.2 := by decide
    rw [he]
    exact hall p hp
  · rw [he, he]

theorem isComb_upperN (c : Nat) : isComb (upperN c) = isComb c := by
  rcases upperN_cases c with ⟨ha, hb, he⟩ | ⟨p, hp, hpc, he⟩ | he
  · rw [he, isComb_small (by omega), isComb_small (by omega)]
  · have hall : ∀ q ∈ upperTable, isComb q.2 = isComb q.1 := by decide
    rw [he, ← hpc]
    exact hall p hp
  · rw [he]

theorem upperN_no_dstroke {c : Nat} (h2 : c ≠ 272) (h3 : c ≠ 273) :
    upperN c ≠ 272 ∧ upperN c ≠ 273 := by
  rcases upperN_cases c with ⟨ha, hb, he⟩ | ⟨p, hp, hpc, he⟩ | he
  · rw [he]
    constructor <;> omega
  · have hall : ∀ q ∈ upperTable, q.1 = 273 ∨ (q.2 ≠ 272 ∧ q.2 ≠ 273) := by decide
    rcases hall p hp with hq | hq
    · rw [hpc] at hq
      exact absurd hq h3
    · rw [he]
      exact hq
  · rw [he]
    exact ⟨h2, h3⟩

theorem upperStr_idem (u : UStr) : upperStr (upperStr u) = upperStr u := by
  show (u.map upperN).map upperN = u.map upperN
  rw [List.map_map]
  exact List.map_congr_left (fun c _ => upperN_idem c)

theorem normalizeCell_fix {c : Cell} {p : UStr} (h : normalizeCell c = some p) :
    normT p = p := by
  cases c with
  | blank => exact absurd h (by simp [normalizeCell])
  | str s =>
    have hp : p = normT (showCell (Cell.str s)) := by simpa [normalizeCell] using h.symm
    rw [hp, normT_idem]
  | num v =>
    have hp : p = normT (showCell (Cell.num v)) := by simpa [normalizeCell] using h.symm
    rw [hp, normT_idem]

/-- C2 counterexample, three concrete violations of the claim: (a) in the
column-aggregation path with no district column supplied, the record's
district is null, not an empty string or placeholder; (b) in the
heuristic import path the province is only stripped and upper-cased, so the
caller-supplied name Đà Nẵng yields the province ĐÀ NẴNG, which is not
diacritic-free (it is not a fixed point of the path's own normalizer);
(c) in the fixed-offset path, with no explicit year and a filename holding
no 4-digit year, every record's year is null, so a year is not always
carried. -/
theorem C2_counterexample :
    ((process_rows ⟨[[80]], [[Cell.str [104, 224]]]⟩ (some (ColTok.strT [80]))
        none none none 2021 (fun _ => none)).map
      (fun l => l.map (fun r => r.district))) = some [none] ∧
      (process_file_to_edengue [([84, 55], cexGrid)] daNang 1 12
          defaultColMap).map (fun r => r.province) =
        [[272, 192, 32, 78, 7860, 78, 71]] ∧
      rduT [272, 192, 32, 78, 7860, 78, 71] ≠ [272, 192, 32, 78, 7860, 78, 71] ∧
      (process_dmoss_file [68, 77] none [([72], ⟨2, [[Cell.blank]]⟩)]
          1 2 3 4 6 1).map (fun r => r.year) = List.replicate 12 none := by
  refine ⟨by decide, by decide, by decide, by decide⟩

/-- C2 amended: once extraction completes — in the heuristic import path
every record carries year 2025, the caller's province name stripped and
upper-cased (not diacritic-stripped), and a never-null district fixed by
that path's normalizer (the normalized label or the UNKNOWN placeholder);
in the fixed-offset path the province is upper-cased and diacritic-free
(no combining marks, no Đ/đ), the district is the empty string, and the
year is the explicit argument when present, else inferred from the
filename and null when that fails; in the column-aggregation path every
record carries the integer year, its province and district are null or
fixed points of that path's normalizer, and the district is null for
every record when no district column token was supplied. -/
theorem C2_record_invariants :
    (∀ sheets provName mMin mMax cm,
      ∀ r ∈ process_file_to_edengue sheets provName mMin mMax cm,
        r.year = 2025 ∧ r.province = upperStr (trim provName) ∧
          rduT r.district = r.district) ∧
      (∀ fname yearArg sheets d1 d2 d3 d4 tot st,
        ∀ r ∈ process_dmoss_file fname yearArg sheets d1 d2 d3 d4 tot st,
          r.district = [] ∧ upperStr r.province = r.province ∧
            (∀ c ∈ r.province, isComb c = false ∧ c ≠ 272 ∧ c ≠ 273) ∧
            r.year = (match yearArg with
              | some y => some y
              | none => infer_year_from_filename fname)) ∧
      (∀ t provTok distTok monthTok resToks year pm rows,
        process_rows t provTok distTok monthTok resToks year pm = some rows →
        ∀ r ∈ rows,
          r.year = year ∧ (∀ p, r.province = some p → normT p = p) ∧
            (distTok = none → r.district = none) ∧
            (∀ dv, r.district = some dv → normT dv = dv)) := by
  refine ⟨?_, ?_, ?_⟩
  · intro sheets provName mMin mMax cm r hr
    simp only [process_file_to_edengue] at hr
    rw [List.mem_flatMap] at hr
    obtain ⟨p, hp, hrp⟩ := hr
    split at hrp
    · exact absurd hrp (by simp)
    · split at hrp
      · simp only [extract_tc_rows_from_sheet] at hrp
        rw [List.mem_map] at hrp
        obtain ⟨idx, _, hre⟩ := hrp
        rw [← hre]
        exact ⟨rfl, rfl, rduT_idem _⟩
      · exact absurd hrp (by simp)
  · intro fname yearArg sheets d1 d2 d3 d4 tot st r hr
    simp only [process_dmoss_file] at hr
    rw [List.mem_flatMap] at hr
    obtain ⟨p, hp, hrp⟩ := hr
    rw [List.mem_map] at hrp
    obtain ⟨m, _, hre⟩ := hrp
    rw [← hre]
    refine ⟨rfl, upperStr_idem _, ?_, rfl⟩
    intro c hc
    obtain ⟨d0, hd0, rfl⟩ := List.mem_map.mp hc
    have hcomb : isComb d0 = false := by
      have := List.mem_filter.mp hd0
      simpa using this.2
    have hds := rda_no_dstroke p.1 d0 hd0
    refine ⟨?_, (upperN_no_dstroke hds.1 hds.2).1, (upperN_no_dstroke hds.1 hds.2).2⟩
    rw [isComb_upperN]
    exact hcomb
  · intro t provTok distTok monthTok resToks year pm rows h r hr
    simp only [process_rows] at h
    split at h
    · exact absurd h (by simp)
    · split at h
      · exact absurd h (by simp)
      · have hrows : rows = _ := (Option.some.injEq _ _ ▸ h).symm
        subst hrows
        rw [List.mem_map] at hr
        obtain ⟨row, _, hre⟩ := hr
        rw [← hre]
        refine ⟨rfl, ?_, ?_, ?_⟩
        · intro p hp
          exact normalizeCell_fix hp
        · intro hdt
          simp only [hdt]
        · intro dv hdv
          simp only at hdv
          split at hdv
          · exact normalizeCell_fix hdv
          · exact absurd hdv (by simp)

/-- C2 witness: the import-path conjunct discharged at the concrete
counterexample record. -/
theorem C2_record_invariants_witness :
    (⟨[272, 192, 32, 78, 7860, 78, 71], unknownStr, 2025, 7, PyNum.intV 1,
        PyNum.intV 2, PyNum.intV 3, PyNum.intV 4, PyNum.intV 5⟩ : ImpRecord).year
        = 2025 ∧
      (⟨[272, 192, 32, 78, 7860, 78, 71], unknownStr, 2025, 7, PyNum.intV 1,
        PyNum.intV 2, PyNum.intV 3, PyNum.intV 4, PyNum.intV 5⟩ :
          ImpRecord).province = upperStr (trim daNang) ∧
      rduT (⟨[272, 192, 32, 78, 7860, 78, 71], unknownStr, 2025, 7, PyNum.intV 1,
        PyNum.intV 2, PyNum.intV 3, PyNum.intV 4, PyNum.intV 5⟩ :
          ImpRecord).district =
        (⟨[272, 192, 32, 78, 7860, 78, 71], unknownStr, 2025, 7, PyNum.intV 1,
          PyNum.intV 2, PyNum.intV 3, PyNum.intV 4, PyNum.intV 5⟩ :
            ImpRecord).district :=
  C2_record_invariants.1 [([84, 55], cexGrid)] daNang 1 12 defaultColMap _
    (by decide)

end Edengue
